import Mathlib

/-!
Shallow embedding of the LARS/LASSO/Elastic-Net solver (`lars.h`, class `Lars`)
in exact real arithmetic.

Vectors are modelled as total functions `ℕ → ℝ` and matrices as `ℕ → ℕ → ℝ`,
with the relevant dimensions (`n_`, `p_`, number of active variables, dimension
of the Cholesky factor) carried separately, matching Armadillo's untyped
`vec`/`mat` objects.  Machine doubles are modelled by exact reals; `DBL_MAX`
and `EPS = 1e-16` are embedded as the corresponding rational constants.
Armadillo's generic `solve(A, b)` is modelled as `A⁻¹ * b` (its contract on a
square system), and `solve(trimatl(L), b)` as forward substitution reading
only the lower triangle, which is what the flag means.  Division by zero
yields 0 in Lean (C++ would give ±inf/NaN); in every such degenerate spot the
code only compares the quotient against a strict positivity test, where both
semantics agree that the candidate is excluded.
-/

open Classical

noncomputable section

/-- Dot product of the first `m` coordinates of two vectors (`arma::dot` on
length-`m` vectors). -/
def dotn (m : ℕ) (f g : ℕ → ℝ) : ℝ := ∑ r in Finset.range m, f r * g r

/-- The value of `(u32)(-1)`, which the source assigns to `change_ind` via
`change_ind = -1`. -/
def u32neg1 : ℕ := 4294967295

/-- The source's `#define EPS 1e-16`. -/
def EPS : ℝ := 1e-16

/-- The C constant `DBL_MAX`, the initial value of `lasso_bound_on_gamma`. -/
def DBL_MAX : ℝ := 1.7976931348623157e308

/-- Forward substitution, building the list of the first `i` solution entries
of `L x = b` for a lower-triangular read of `L` (model of
`arma::solve(trimatl(L), b)`). -/
def forwardSubAux (L : ℕ → ℕ → ℝ) (b : ℕ → ℝ) : ℕ → List ℝ
  | 0 => []
  | i + 1 =>
    let xs := forwardSubAux L b i
    xs ++ [(b i - ∑ j in Finset.range i, L i j * xs.getD j 0) / L i i]

/-- Entry `i` of the forward-substitution solution of `L x = b`. -/
def forwardSub (L : ℕ → ℕ → ℝ) (b : ℕ → ℝ) (i : ℕ) : ℝ :=
  (forwardSubAux L b (i + 1)).getD i 0

/-- View the top-left `k × k` block of an untyped matrix as a Mathlib matrix. -/
def toMat (A : ℕ → ℕ → ℝ) (k : ℕ) : Matrix (Fin k) (Fin k) ℝ :=
  Matrix.of fun i j => A i.1 j.1

/-- Model of Armadillo's generic `solve(A, b)` on a `k × k` system:
`A⁻¹ * b`, extended by 0 outside the system's dimension. -/
def solveMat (A : ℕ → ℕ → ℝ) (k : ℕ) (b : ℕ → ℝ) (i : ℕ) : ℝ :=
  if h : i < k then (toMat A k)⁻¹.mulVec (fun j : Fin k => b j.1) ⟨i, h⟩ else 0

/-- `abs_corr.max(change_ind)`: maximum of `|f j|` over `j < p` together with
the first index attaining it (Armadillo keeps the first extremum).  The
accumulator starts below every absolute value so that the first coordinate is
always taken; on an empty vector Armadillo aborts, the model returns the
start value `(-1, u32neg1)`. -/
def argmaxAbs (f : ℕ → ℝ) (p : ℕ) : ℝ × ℕ :=
  (List.range p).foldl (fun acc j => if |f j| > acc.1 then (|f j|, j) else acc)
    (-1, u32neg1)

/-! ### `CholeskyInsert` (lars.h lines 459-491) -/

/-- The radicand `sq_norm_new_x - dot(R_k, R_k)` formed inside
`CholeskyInsert` when `R` is `k × k` with `k > 0`. -/
def cholRadicand (R : ℕ → ℕ → ℝ) (k : ℕ) (en : Bool) (l2 : ℝ) (m : ℕ)
    (x g : ℕ → ℝ) : ℝ :=
  (dotn m x x + if en then l2 else 0) -
    dotn k (forwardSub (fun i j => R j i) g) (forwardSub (fun i j => R j i) g)

/-- `CholeskyInsert(R, new_x, new_Gram_col)`: extends the `k × k` upper
triangular factor `R` by one column.  `en`/`l2` are `elastic_net_`/`lambda_2_`,
`m` is the row count of the dataset (length of `new_x`), `g` is
`new_Gram_col`.  For `k = 0` the result is the `1 × 1` matrix
`sqrt(‖x‖² (+ λ₂))`; otherwise the source solves
`trimatl(trans(R)) · R_k = g`, appends column `R_k` and the new diagonal
`sqrt(sq_norm_new_x - R_k·R_k)`. -/
def CholeskyInsert (R : ℕ → ℕ → ℝ) (k : ℕ) (en : Bool) (l2 : ℝ) (m : ℕ)
    (x g : ℕ → ℝ) : ℕ → ℕ → ℝ :=
  if k = 0 then
    fun i j =>
      if i = 0 ∧ j = 0 then Real.sqrt (dotn m x x + if en then l2 else 0)
      else 0
  else
    let Rk := forwardSub (fun i j => R j i) g
    fun i j =>
      if i < k ∧ j < k then R i j
      else if i < k ∧ j = k then Rk i
      else if i = k ∧ j < k then 0
      else if i = k ∧ j = k then Real.sqrt (cholRadicand R k en l2 m x g)
      else 0

/-! ### `GivensRotate` / `CholeskyDelete` (lars.h lines 494-543) -/

/-- One pass of the loop body of `CholeskyDelete` at column `kk` on a matrix
with `ncols` remaining columns: a Givens rotation of rows `kk, kk+1` built
from `R(span(kk,kk+1), kk)` is applied to `R(span(kk,kk+1), span(kk,ncols-1))`.
When the subdiagonal entry is 0, `GivensRotate` returns the identity and the
assignments rewrite the same values, so the matrix is unchanged. -/
def givensStep (ncols : ℕ) (M : ℕ → ℕ → ℝ) (kk : ℕ) : ℕ → ℕ → ℝ :=
  let a := M kk kk
  let b := M (kk + 1) kk
  if b = 0 then M
  else
    let r := Real.sqrt (a ^ 2 + b ^ 2)
    let c := a / r
    let sn := b / r
    fun i j =>
      if i = kk ∧ j = kk then r
      else if i = kk + 1 ∧ j = kk then 0
      else if (i = kk ∨ i = kk + 1) ∧ (kk + 1 ≤ j ∧ j + 1 ≤ ncols) then
        (if i = kk then c * M kk j + sn * M (kk + 1) j
         else -sn * M kk j + c * M (kk + 1) j)
      else M i j

/-- The rotation loop of `CholeskyDelete`: applies `givensStep` at columns
`kk, kk+1, …` for `steps` iterations. -/
def givensSteps (ncols : ℕ) : ℕ → (ℕ → ℕ → ℝ) → ℕ → ℕ → ℕ → ℝ
  | 0, M, _ => M
  | steps + 1, M, kk => givensSteps ncols steps (givensStep ncols M kk) (kk + 1)

/-- `CholeskyDelete(R, col_to_kill)` on a `k × k` factor: removing the last
column truncates `R`; otherwise the column is shed, Givens rotations restore
triangular form column by column, and the final all-zero row is shed.  Since
dimensions are tracked separately, truncation and shedding the last row leave
the entry function unchanged. -/
def CholeskyDelete (R : ℕ → ℕ → ℝ) (k : ℕ) (kill : ℕ) : ℕ → ℕ → ℝ :=
  if kill = k - 1 then R
  else
    let M := fun i j => if j < kill then R i j else R i (j + 1)
    givensSteps (k - 1) (k - 1 - kill) M kill

end

noncomputable section

/-! ### The `Lars` object and the locals of `DoLARS` -/

/-- The full state: the member fields of class `Lars` (`X_` … `is_active_`)
together with the local variables of a `DoLARS` run (`beta` … `R`).  The
locals live in the record so that the loop can be expressed as a function on
one state type; `DoLARS` reinitialises them on entry exactly as the source
does.  `Rdim` tracks `R.n_rows`. -/
@[ext]
structure LarsState where
  X : ℕ → ℕ → ℝ
  y : ℕ → ℝ
  n : ℕ
  p : ℕ
  Gram : ℕ → ℕ → ℝ
  Xty : ℕ → ℝ
  use_cholesky : Bool
  lasso : Bool
  desired_lambda : ℝ
  elastic_net : Bool
  lambda_2 : ℝ
  beta_path : List (ℕ → ℝ)
  lambda_path : List ℝ
  n_active : ℕ
  active_set : List ℕ
  is_active : ℕ → Bool
  beta : ℕ → ℝ
  y_hat : ℕ → ℝ
  kick_out : Bool
  corr : ℕ → ℝ
  max_corr : ℝ
  change_ind : ℕ
  R : ℕ → ℕ → ℝ
  Rdim : ℕ

/-- Column `j` of the dataset, `X_.col(j)`. -/
def colX (s : LarsState) (j : ℕ) : ℕ → ℝ := fun r => s.X r j

/-- `active_set_[i]`.  Reading out of range is undefined behaviour in C++;
the model answers `u32neg1`, an index that is never a real variable. -/
def aGet (s : LarsState) (i : ℕ) : ℕ := s.active_set.getD i u32neg1

/-- The default-constructed object `Lars()`: sets `lasso_ = false` and
`elastic_net_ = false`; every other field is uninitialised in C++ and is
modelled as zero/false/empty. -/
def larsNew : LarsState where
  X := fun _ _ => 0
  y := fun _ => 0
  n := 0
  p := 0
  Gram := fun _ _ => 0
  Xty := fun _ => 0
  use_cholesky := false
  lasso := false
  desired_lambda := 0
  elastic_net := false
  lambda_2 := 0
  beta_path := []
  lambda_path := []
  n_active := 0
  active_set := []
  is_active := fun _ => false
  beta := fun _ => 0
  y_hat := fun _ => 0
  kick_out := false
  corr := fun _ => 0
  max_corr := 0
  change_ind := 0
  R := fun _ _ => 0
  Rdim := 0

/-- `ComputeGram()`: `Gram_ = X^T X (+ lambda_2 * eye(p, p))`. -/
def ComputeGram (nr pc : ℕ) (X : ℕ → ℕ → ℝ) (en : Bool) (l2 : ℝ) :
    ℕ → ℕ → ℝ :=
  if en then
    fun i j => dotn nr (fun r => X r i) (fun r => X r j) +
      (if i = j ∧ i < pc then l2 else 0)
  else fun i j => dotn nr (fun r => X r i) (fun r => X r j)

/-- `Init(X, y, use_cholesky)` (lars.h lines 75-94).  `nr`/`pc` are
`X.n_rows`/`X.n_cols`.  Computes `Xty_`, computes `Gram_` only when the
Cholesky branch is off, and resets the active-set bookkeeping.  The mode
fields `lasso_`, `elastic_net_`, `desired_lambda_`, `lambda_2_` and the two
path containers are not touched. -/
def Init3 (X : ℕ → ℕ → ℝ) (y : ℕ → ℝ) (nr pc : ℕ) (chol : Bool)
    (s : LarsState) : LarsState :=
  { s with
    X := X, y := y, n := nr, p := pc, use_cholesky := chol
    Xty := fun j => dotn nr (fun r => X r j) y
    Gram := if chol then s.Gram else ComputeGram nr pc X s.elastic_net s.lambda_2
    n_active := 0
    active_set := []
    is_active := fun _ => false }

/-- `Init(X, y, use_cholesky, desired_lambda)`: sets `lasso_ = true` and
`desired_lambda_`, then delegates to the three-argument `Init`. -/
def Init4 (X : ℕ → ℕ → ℝ) (y : ℕ → ℝ) (nr pc : ℕ) (chol : Bool) (dl : ℝ)
    (s : LarsState) : LarsState :=
  Init3 X y nr pc chol { s with lasso := true, desired_lambda := dl }

/-- `Init(X, y, use_cholesky, desired_lambda, lambda_2)`: sets
`elastic_net_ = true` and `lambda_2_`, then delegates to the four-argument
`Init`. -/
def Init5 (X : ℕ → ℕ → ℝ) (y : ℕ → ℝ) (nr pc : ℕ) (chol : Bool) (dl l2 : ℝ)
    (s : LarsState) : LarsState :=
  Init4 X y nr pc chol dl { s with elastic_net := true, lambda_2 := l2 }

/-- `UpdateGram(col_inds)` (lars.h lines 124-142): recomputes `Gram_(i, j)`
for every pair `i, j` of listed indices from the (already updated) columns,
then adds `lambda_2_` once per listed occurrence to the listed diagonal
entries when in Elastic Net mode. -/
def UpdateGram (inds : List ℕ) (s : LarsState) : ℕ → ℕ → ℝ :=
  let base : ℕ → ℕ → ℝ := fun a b =>
    if a ∈ inds ∧ b ∈ inds then dotn s.n (colX s a) (colX s b) else s.Gram a b
  if s.elastic_net then
    inds.foldl (fun G i => fun a b =>
      if a = i ∧ b = i then G a b + s.lambda_2 else G a b) base
  else base

/-- `UpdateXty(col_inds)` (lars.h lines 145-151): recomputes `Xty_(i)` for
each listed index from the updated columns. -/
def UpdateXty (inds : List ℕ) (s : LarsState) : ℕ → ℝ :=
  fun j => if j ∈ inds then dotn s.n (colX s j) s.y else s.Xty j

/-- `UpdateX(col_inds, new_cols)` (lars.h lines 112-121): writes
`new_cols.col(i)` over column `col_inds[i]` of `X_` (in order, later writes
winning), then calls `UpdateGram` (only when the Gram matrix is maintained)
and `UpdateXty`. -/
def UpdateX (inds : List ℕ) (newcols : ℕ → ℕ → ℝ) (s : LarsState) :
    LarsState :=
  let X' := (List.range inds.length).foldl
    (fun M i => fun r j => if j = inds.getD i 0 then newcols r i else M r j)
    s.X
  let s1 := { s with X := X' }
  let s2 :=
    if s.use_cholesky then s1 else { s1 with Gram := UpdateGram inds s1 }
  { s2 with Xty := UpdateXty inds s2 }

/-- `Deactivate(active_var_ind)` (lars.h lines 401-405): decrements
`n_active_`, clears the membership flag of `active_set_[active_var_ind]`,
and erases that position from `active_set_`. -/
def Deactivate (s : LarsState) (pos : ℕ) : LarsState :=
  { s with
    n_active := s.n_active - 1
    is_active := fun j => if j = s.active_set.getD pos u32neg1 then false
      else s.is_active j
    active_set := s.active_set.eraseIdx pos }

/-- `Activate(var_ind)` (lars.h lines 408-412): increments `n_active_`, sets
the membership flag, appends to `active_set_`. -/
def Activate (s : LarsState) (v : ℕ) : LarsState :=
  { s with
    n_active := s.n_active + 1
    is_active := fun j => if j = v then true else s.is_active j
    active_set := s.active_set ++ [v] }

/-- `InterpolateBeta(ultimate_lambda)` (lars.h lines 424-439): overwrites the
last coefficient-path entry with the convex combination
`(1-interp)·beta_prev + interp·beta_last` where
`interp = (lambda_prev - desired_lambda) / (lambda_prev - ultimate_lambda)`,
and the last lambda-path entry with `desired_lambda_`. -/
def InterpolateBeta (ul : ℝ) (s : LarsState) : LarsState :=
  let len := s.beta_path.length
  let lprev := s.lambda_path.getD (len - 2) 0
  let interp := (lprev - s.desired_lambda) / (lprev - ul)
  let bprev := s.beta_path.getD (len - 2) (fun _ => 0)
  let blast := s.beta_path.getD (len - 1) (fun _ => 0)
  { s with
    beta_path := s.beta_path.set (len - 1)
      (fun j => (1 - interp) * bprev j + interp * blast j)
    lambda_path := s.lambda_path.set (len - 1) s.desired_lambda }

end

noncomputable section

/-! ### The body of the main loop of `DoLARS` (lars.h lines 225-395) -/

/-- The top of a loop iteration (lines 226-253): if the previous iteration
flagged a kick-out, clear the flag, downdate `R` (Cholesky branch) and
deactivate the flagged position; otherwise insert the new column into `R`
(Cholesky branch, with `new_Gram_col(i) = X.col(active_i)·X.col(change_ind)`)
and activate `change_ind`. -/
def kickOrActivate (s : LarsState) : LarsState :=
  if s.kick_out = true then
    let s0 := { s with kick_out := false }
    let s1 :=
      if s.use_cholesky then
        { s0 with R := CholeskyDelete s.R s.Rdim s.change_ind,
                  Rdim := s.Rdim - 1 }
      else s0
    Deactivate s1 s.change_ind
  else
    let s1 :=
      if s.use_cholesky then
        { s with
          R := CholeskyInsert s.R s.Rdim s.elastic_net s.lambda_2 s.n
            (colX s s.change_ind)
            (fun i => dotn s.n (colX s (aGet s i)) (colX s s.change_ind)),
          Rdim := s.Rdim + 1 }
      else s
    Activate s1 s.change_ind

/-- The sign vector `s(i) = corr(active_i) / |corr(active_i)|`
(lines 257-260). -/
def signsOf (s : LarsState) : ℕ → ℝ :=
  fun i => s.corr (aGet s i) / |s.corr (aGet s i)|

/-- The equiangular direction in the Cholesky branch (lines 269-283):
`unnormalized = solve(R, solve(trans(R), s))`,
`normalization = 1/sqrt(dot(s, unnormalized))`,
`beta_direction = normalization * unnormalized`. -/
def dirChol (s : LarsState) : (ℕ → ℝ) × ℝ :=
  let sg := signsOf s
  let d := solveMat s.R s.Rdim (solveMat (fun i j => s.R j i) s.Rdim sg)
  let nz := 1 / Real.sqrt (dotn s.n_active sg d)
  (fun i => nz * d i, nz)

/-- The equiangular direction in the explicit-Gram branch (lines 284-302):
solve `(Gram_active ∘ Sᵗ ∘ S) d = 1`, `normalization = 1/sqrt(sum(d))`,
`beta_direction = normalization * d ∘ s`. -/
def dirGram (s : LarsState) : (ℕ → ℝ) × ℝ :=
  let sg := signsOf s
  let A := fun i j => s.Gram (aGet s i) (aGet s j) * sg j * sg i
  let d := solveMat A s.n_active (fun _ => 1)
  let nz := 1 / Real.sqrt (∑ i in Finset.range s.n_active, d i)
  (fun i => nz * d i * sg i, nz)

/-- `ComputeYHatDirection` (lines 415-421):
`y_hat_direction = Σ_i beta_direction(i) * X.col(active_i)`. -/
def yHatDir (s : LarsState) (bd : ℕ → ℝ) : ℕ → ℝ :=
  fun r => ∑ i in Finset.range s.n_active, bd i * s.X r (aGet s i)

/-- The step-length scan over inactive variables (lines 310-338): starting
from `gamma = max_corr / normalization` and `change_ind = (u32)(-1)`, each
inactive index contributes `val1` and `val2`; a positive value strictly
below the current `gamma` replaces it and records the index: one candidate
step of the scan. -/
def scanStep (s : LarsState) (yd : ℕ → ℝ) (nz : ℝ) (acc : ℝ × ℕ)
    (ind : ℕ) : ℝ × ℕ :=
  if s.is_active ind = true then acc
  else
    let dc := dotn s.n (fun r => s.X r ind) yd
    let v1 := (s.max_corr - s.corr ind) / (nz - dc)
    let v2 := (s.max_corr + s.corr ind) / (nz + dc)
    let acc1 := if 0 < v1 ∧ v1 < acc.1 then (v1, ind) else acc
    if 0 < v2 ∧ v2 < acc1.1 then (v2, ind) else acc1

/-- The scan itself, folding `scanStep` over all `p` indices. -/
def gammaScan (s : LarsState) (yd : ℕ → ℝ) (nz : ℝ) : ℝ × ℕ :=
  let g0 := s.max_corr / nz
  if s.n_active < s.p then
    (List.range s.p).foldl (scanStep s yd nz) (g0, u32neg1)
  else (g0, u32neg1)

/-- The LASSO bound (lines 343-359): over active positions `i`, the smallest
strictly positive `-beta(active_i)/beta_direction(i)` (starting from
`DBL_MAX`); if it is strictly below the current `gamma` it overrides `gamma`,
records the position, and sets the kick-out flag.  `minFoldAux` is the
running strictly-positive minimum (with the first attaining index) of
`val i` over `i < n`, started at `DBL_MAX` with index `(u32)(-1)`. -/
def minFoldAux (val : ℕ → ℝ) (n : ℕ) : ℝ × ℕ :=
  (List.range n).foldl
    (fun acc i => if 0 < val i ∧ val i < acc.1 then (val i, i) else acc)
    (DBL_MAX, u32neg1)

/-- The LASSO bound applied to the scan's result. -/
def lassoAdjust (s : LarsState) (bd : ℕ → ℝ) (g : ℝ × ℕ) : ℝ × ℕ × Bool :=
  if s.lasso = true then
    let mr := minFoldAux (fun i => -s.beta (aGet s i) / bd i) s.n_active
    if mr.1 < g.1 then (mr.1, mr.2, true) else (g.1, g.2, false)
  else (g.1, g.2, false)

/-- Lines 362-385: update `y_hat`, update `beta` at the active positions,
append `beta` to the coefficient path, recompute `corr = Xty - Xᵗ y_hat`,
decrement `max_corr` by `gamma * normalization` and append it to the
regularization path.  Also stores the scan's `change_ind` and the kick-out
flag carried to the next iteration. -/
def updatePhase (s : LarsState) (bd yd : ℕ → ℝ) (nz : ℝ)
    (gcb : ℝ × ℕ × Bool) : LarsState :=
  let gamma := gcb.1
  let y_hat' := fun r => s.y_hat r + gamma * yd r
  let beta' := (List.range s.n_active).foldl
    (fun b i => Function.update b (aGet s i) (b (aGet s i) + gamma * bd i))
    s.beta
  let mc' := s.max_corr - gamma * nz
  { s with
    y_hat := y_hat'
    beta := beta'
    beta_path := s.beta_path ++ [beta']
    corr := fun j => s.Xty j - dotn s.n (fun r => s.X r j) y_hat'
    max_corr := mc'
    lambda_path := s.lambda_path ++ [mc']
    change_ind := gcb.2.1
    kick_out := gcb.2.2 }

/-- The LASSO stopping test (lines 388-394): when
`max_corr ≤ desired_lambda`, interpolate and break out of the loop (the
Boolean is the break flag). -/
def stopPhase (s : LarsState) : LarsState × Bool :=
  if s.lasso = true ∧ s.max_corr ≤ s.desired_lambda then
    (InterpolateBeta s.max_corr s, true)
  else (s, false)

/-- Stage 1 of the body. -/
def stage1 (s : LarsState) : LarsState := kickOrActivate s

/-- The direction used by the body: Cholesky or explicit-Gram branch. -/
def stageDir (s : LarsState) : (ℕ → ℝ) × ℝ :=
  if (stage1 s).use_cholesky then dirChol (stage1 s) else dirGram (stage1 s)

/-- The prediction-space direction used by the body. -/
def stageYd (s : LarsState) : ℕ → ℝ := yHatDir (stage1 s) (stageDir s).1

/-- The (gamma, change_ind) pair after the inactive-variable scan. -/
def stageGam (s : LarsState) : ℝ × ℕ :=
  gammaScan (stage1 s) (stageYd s) (stageDir s).2

/-- The (gamma, change_ind, kick_out) triple after the LASSO bound. -/
def stageLasso (s : LarsState) : ℝ × ℕ × Bool :=
  lassoAdjust (stage1 s) (stageDir s).1 (stageGam s)

/-- One full iteration of the main loop; the Boolean is the LASSO break
flag. -/
def larsBody (s : LarsState) : LarsState × Bool :=
  stopPhase (updatePhase (stage1 s) (stageDir s).1 (stageYd s)
    (stageDir s).2 (stageLasso s))

/-- The loop guard `(n_active_ < p_) && (max_corr > EPS)`. -/
def larsGuard (s : LarsState) : Prop := s.n_active < s.p ∧ EPS < s.max_corr

/-- The main loop, with explicit fuel (the C++ `while` loop; every claim
about it is stated for every amount of fuel, or past the fuel at which the
guard provably dies). -/
def larsLoop : ℕ → LarsState → LarsState
  | 0, s => s
  | fuel + 1, s =>
    if larsGuard s then
      let r := larsBody s
      if r.2 then r.1 else larsLoop fuel r.1
    else s

/-- The entry sequence of `DoLARS()` (lines 191-220): reset the run-local
estimator state, clobber `lambda_2_` with `-1` when Elastic Net is off, set
`corr = Xty_`, take the maximum absolute correlation and its index, push the
initial all-zero coefficient vector and `max_corr` onto the paths, and start
from an empty `0 × 0` factor `R`.  The member fields `active_set_`,
`n_active_`, `is_active_`, `beta_path_`, `lambda_path_` are NOT reset. -/
def doLarsInit (s : LarsState) : LarsState :=
  let s0 := if s.elastic_net then s else { s with lambda_2 := -1 }
  let mi := argmaxAbs s0.Xty s0.p
  { s0 with
    beta := fun _ => 0
    y_hat := fun _ => 0
    kick_out := false
    corr := s0.Xty
    max_corr := mi.1
    change_ind := mi.2
    beta_path := s0.beta_path ++ [fun _ => 0]
    lambda_path := s0.lambda_path ++ [mi.1]
    R := fun _ _ => 0
    Rdim := 0 }

/-- `DoLARS()` with explicit loop fuel. -/
def DoLARS (fuel : ℕ) (s : LarsState) : LarsState :=
  larsLoop fuel (doLarsInit s)

/-- `SetDesiredLambda` / `DoLARS(desired_lambda)` (lines 180-188). -/
def DoLARSAt (fuel : ℕ) (dl : ℝ) (s : LarsState) : LarsState :=
  DoLARS fuel { s with desired_lambda := dl }

end

/-! ### Small evaluation helpers -/

theorem dotn_zero (f g : ℕ → ℝ) : dotn 0 f g = 0 := by
  simp [dotn]

theorem dotn_one (f g : ℕ → ℝ) : dotn 1 f g = f 0 * g 0 := by
  simp [dotn]

theorem forwardSub_zero (L : ℕ → ℕ → ℝ) (b : ℕ → ℝ) :
    forwardSub L b 0 = b 0 / L 0 0 := by
  simp [forwardSub, forwardSubAux]

/-! ### Concrete instances used to evaluate the code at failing inputs -/

/-- A 1 × 2 dataset: `X = [1 2]`. -/
def Xc2 : ℕ → ℕ → ℝ := fun r j =>
  if r = 0 then (if j = 0 then 1 else if j = 1 then 2 else 0) else 0

/-- The response `y = [1]`. -/
def yc2 : ℕ → ℝ := fun r => if r = 0 then 1 else 0

/-- Replacement columns for `UpdateX`: one new column `[3]`. -/
def newc2 : ℕ → ℕ → ℝ := fun r i => if r = 0 ∧ i = 0 then 3 else 0

/-- The `Lars` object after `Init(X, y, false)` and `UpdateX({0}, [3])` on
the 1 × 2 dataset. -/
def larsC2 : LarsState := UpdateX [0] newc2 (Init3 Xc2 yc2 1 2 false larsNew)

/-- C2: `UpdateX({0}, [3])` on `X = [1 2]`, `y = [1]` replaces column 0 by
`[3]`, but `UpdateGram` recomputes only the pairs of replaced indices:
`Gram(0,1)` and `Gram(1,0)` keep the stale value `1·2 = 2` although the true
cross product of the updated columns is `3·2 = 6`, so `Gram ≠ XᵗX` after the
update.  The replaced diagonal `Gram(0,0) = 9` and `Xty(0) = 3` are updated
as the claim says.  This evaluates the embedded code at the failing
input. -/
theorem C2_update_gram_stale_cross_term :
    larsC2.Gram 0 1 = 2 ∧ larsC2.Gram 1 0 = 2 ∧ larsC2.Gram 0 0 = 9 ∧
    dotn larsC2.n (colX larsC2 0) (colX larsC2 1) = 6 ∧
    larsC2.Xty 0 = 3 := by
  have hrange1 : List.range 1 = [0] := rfl
  refine ⟨?_, ?_, ?_, ?_, ?_⟩ <;>
    norm_num [larsC2, UpdateX, UpdateGram, UpdateXty, Init3, ComputeGram,
      larsNew, dotn, colX, Xc2, yc2, newc2, hrange1]

/-- The 1 × 1 factor `R = [1]` of a single unit column. -/
def Rc8 : ℕ → ℕ → ℝ := fun i j => if i = 0 ∧ j = 0 then 1 else 0

/-- The duplicate unit column being inserted. -/
def xc8 : ℕ → ℝ := fun r => if r = 0 then 1 else 0

/-- Its cross-correlation with the active column: `[1]`. -/
def gc8 : ℕ → ℝ := fun i => if i = 0 then 1 else 0

/-- C8: inserting an exact duplicate of the active column makes the
`CholeskyInsert` radicand `‖x‖² − RₖᵗRₖ = 1 − 1 = 0`, i.e. non-positive;
the code performs `sqrt(0) = 0` and returns a completed factor with a zero
diagonal entry (singular, so every later triangular solve is garbage)
instead of surfacing any error: the function is total and the run
continues.  This evaluates the embedded code at the failing input. -/
theorem C8_nonpositive_radicand_not_surfaced :
    cholRadicand Rc8 1 false 0 1 xc8 gc8 ≤ 0 ∧
    CholeskyInsert Rc8 1 false 0 1 xc8 gc8 1 1 = 0 ∧
    CholeskyInsert Rc8 1 false 0 1 xc8 gc8 0 1 = 1 ∧
    CholeskyInsert Rc8 1 false 0 1 xc8 gc8 0 0 = 1 := by
  have hrad : cholRadicand Rc8 1 false 0 1 xc8 gc8 = 0 := by
    norm_num [cholRadicand, dotn_one, forwardSub_zero, Rc8, xc8, gc8]
  refine ⟨le_of_eq hrad, ?_, ?_, ?_⟩ <;>
    norm_num [CholeskyInsert, hrad, Real.sqrt_zero, forwardSub_zero, Rc8,
      xc8, gc8]

/-- C10: the three-argument `Init` leaves the mode fields `lasso_`,
`elastic_net_`, `desired_lambda_`, `lambda_2_` untouched (they are set to
their defaults only by the constructor), so calling it after a four- or
five-argument `Init` keeps LASSO (and Elastic Net) mode enabled with the
stale parameter values. -/
theorem C10_three_arg_init_keeps_mode_fields :
    ∀ (s : LarsState) (X X' : ℕ → ℕ → ℝ) (y y' : ℕ → ℝ) (nr pc nr' pc' : ℕ)
      (c c' : Bool) (dl l2 : ℝ),
    ((Init3 X y nr pc c s).lasso = s.lasso ∧
     (Init3 X y nr pc c s).elastic_net = s.elastic_net ∧
     (Init3 X y nr pc c s).desired_lambda = s.desired_lambda ∧
     (Init3 X y nr pc c s).lambda_2 = s.lambda_2) ∧
    (larsNew.lasso = false ∧ larsNew.elastic_net = false) ∧
    ((Init3 X' y' nr' pc' c' (Init4 X y nr pc c dl s)).lasso = true ∧
     (Init3 X' y' nr' pc' c' (Init4 X y nr pc c dl s)).desired_lambda = dl) ∧
    ((Init3 X' y' nr' pc' c' (Init5 X y nr pc c dl l2 s)).lasso = true ∧
     (Init3 X' y' nr' pc' c' (Init5 X y nr pc c dl l2 s)).elastic_net = true ∧
     (Init3 X' y' nr' pc' c' (Init5 X y nr pc c dl l2 s)).desired_lambda = dl ∧
     (Init3 X' y' nr' pc' c' (Init5 X y nr pc c dl l2 s)).lambda_2 = l2) := by
  intro s X X' y y' nr pc nr' pc' c c' dl l2
  exact ⟨⟨rfl, rfl, rfl, rfl⟩, ⟨rfl, rfl⟩, ⟨rfl, rfl⟩, ⟨rfl, rfl, rfl, rfl⟩⟩

/-! ### C6: interpolation exactness -/

/-- C6: `InterpolateBeta` with at least two path entries keeps both path
lengths, overwrites the last coefficient entry with
`(1-interp)·beta_prev + interp·beta_last` for
`interp = (lambda_prev - desiredLambda)/(lambda_prev - lambda_last)`, sets
the last lambda entry to exactly `desired_lambda_`, leaves all earlier
entries unchanged; and in particular for last two lambdas `5`, `3` and
target `4` the result is the exact midpoint with recorded lambda exactly
`4`. -/
theorem C6_interpolate_beta_exact :
    (∀ (s : LarsState) (ul : ℝ),
      2 ≤ s.beta_path.length →
      s.lambda_path.length = s.beta_path.length →
      (InterpolateBeta ul s).beta_path.length = s.beta_path.length ∧
      (InterpolateBeta ul s).lambda_path.length = s.beta_path.length ∧
      (InterpolateBeta ul s).beta_path.getD (s.beta_path.length - 1)
          (fun _ => 0) =
        (fun j =>
          (1 - (s.lambda_path.getD (s.beta_path.length - 2) 0 -
                s.desired_lambda) /
               (s.lambda_path.getD (s.beta_path.length - 2) 0 - ul)) *
            (s.beta_path.getD (s.beta_path.length - 2) (fun _ => 0)) j +
          ((s.lambda_path.getD (s.beta_path.length - 2) 0 -
                s.desired_lambda) /
               (s.lambda_path.getD (s.beta_path.length - 2) 0 - ul)) *
            (s.beta_path.getD (s.beta_path.length - 1) (fun _ => 0)) j) ∧
      (InterpolateBeta ul s).lambda_path.getD (s.beta_path.length - 1) 0 =
        s.desired_lambda ∧
      (∀ i, i < s.beta_path.length - 1 →
        (InterpolateBeta ul s).beta_path.getD i (fun _ => 0) =
          s.beta_path.getD i (fun _ => 0) ∧
        (InterpolateBeta ul s).lambda_path.getD i 0 =
          s.lambda_path.getD i 0)) ∧
    (∀ (t : LarsState) (b0 b1 : ℕ → ℝ),
      (InterpolateBeta 3
        { t with beta_path := [b0, b1], lambda_path := [5, 3],
                 desired_lambda := 4 }).beta_path =
        [b0, fun j => (1 / 2) * b0 j + (1 / 2) * b1 j] ∧
      (InterpolateBeta 3
        { t with beta_path := [b0, b1], lambda_path := [5, 3],
                 desired_lambda := 4 }).lambda_path = [5, 4]) := by
  constructor
  · intro s ul h2 hlen
    have hb1 : s.beta_path.length - 1 < s.beta_path.length := by omega
    have hl1 : s.beta_path.length - 1 < s.lambda_path.length := by omega
    refine ⟨by simp [InterpolateBeta], by simp [InterpolateBeta, hlen], ?_, ?_, ?_⟩
    · simp only [InterpolateBeta]
      rw [List.getD_eq_getElem _ _ (by simpa using hb1)]
      simp [List.getElem_set_self]
    · simp only [InterpolateBeta]
      rw [List.getD_eq_getElem _ _ (by simpa using hl1)]
      simp [List.getElem_set_self]
    · intro i hi
      have hne : s.beta_path.length - 1 ≠ i := by omega
      constructor
      · simp only [InterpolateBeta]
        have hib : i < s.beta_path.length := by omega
        rw [List.getD_eq_getElem _ _ (by simpa using hib),
            List.getD_eq_getElem _ _ hib]
        simp [List.getElem_set_ne hne]
      · simp only [InterpolateBeta]
        have hil : i < s.lambda_path.length := by omega
        rw [List.getD_eq_getElem _ _ (by simpa using hil),
            List.getD_eq_getElem _ _ hil]
        simp [List.getElem_set_ne hne]
  · intro t b0 b1
    constructor
    · simp only [InterpolateBeta]
      norm_num
    · simp only [InterpolateBeta]
      norm_num

/-- The concrete two-entry path state used to witness C6. -/
def larsC6 : LarsState :=
  { larsNew with
    beta_path := [(fun _ => 0), (fun _ => 2)]
    lambda_path := [5, 3]
    desired_lambda := 4 }

/-- Witness for C6: applying the theorem to a concrete two-entry path with
lambdas `5, 3` and target `4` (the hypotheses hold: the path has length 2
and the two containers are parallel). -/
theorem C6_interpolate_beta_exact_witness :
    (2 ≤ larsC6.beta_path.length ∧
     larsC6.lambda_path.length = larsC6.beta_path.length) ∧
    (InterpolateBeta 3 larsC6).lambda_path.getD 1 0 = 4 := by
  refine ⟨⟨by norm_num [larsC6], by norm_num [larsC6]⟩, ?_⟩
  have h := (C6_interpolate_beta_exact.1 larsC6 3
    (by norm_num [larsC6]) (by norm_num [larsC6])).2.2.2.1
  have hl : larsC6.beta_path.length - 1 = 1 := by norm_num [larsC6]
  have hd : larsC6.desired_lambda = 4 := rfl
  rw [hl, hd] at h
  exact h

/-! ### Structural lemmas about one loop iteration -/

theorem setLast_append (l : List (ℕ → ℝ)) (a v : ℕ → ℝ) :
    (l ++ [a]).set l.length v = l ++ [v] := by
  rw [List.set_append_right _ _ (le_refl _)]
  simp

theorem setLast_append' (l : List ℝ) (a v : ℝ) :
    (l ++ [a]).set l.length v = l ++ [v] := by
  rw [List.set_append_right _ _ (le_refl _)]
  simp

/-- The configuration fields are read-only across one loop iteration. -/
theorem larsBody_frame (s : LarsState) :
    (larsBody s).1.X = s.X ∧ (larsBody s).1.y = s.y ∧
    (larsBody s).1.n = s.n ∧ (larsBody s).1.p = s.p ∧
    (larsBody s).1.Gram = s.Gram ∧ (larsBody s).1.Xty = s.Xty ∧
    (larsBody s).1.use_cholesky = s.use_cholesky ∧
    (larsBody s).1.lasso = s.lasso ∧
    (larsBody s).1.desired_lambda = s.desired_lambda ∧
    (larsBody s).1.elastic_net = s.elastic_net ∧
    (larsBody s).1.lambda_2 = s.lambda_2 := by
  simp only [larsBody, stopPhase, updatePhase, stage1, kickOrActivate,
    InterpolateBeta, Deactivate, Activate]
  split_ifs <;> simp

/-- Each iteration appends exactly one snapshot to each path; when the LASSO
stop interpolates, it only rewrites the entry appended in the same
iteration.  Requires the two containers to be parallel on entry. -/
theorem larsBody_paths (s : LarsState)
    (hlen : s.beta_path.length = s.lambda_path.length) :
    (∃ b, (larsBody s).1.beta_path = s.beta_path ++ [b]) ∧
    (∃ lv, (larsBody s).1.lambda_path = s.lambda_path ++ [lv]) := by
  have hpath1 : (stage1 s).beta_path = s.beta_path ∧
      (stage1 s).lambda_path = s.lambda_path := by
    simp only [stage1, kickOrActivate, Deactivate, Activate]
    split_ifs <;> simp
  constructor
  · simp only [larsBody, stopPhase, updatePhase, hpath1.1]
    split_ifs with h
    · simp only [InterpolateBeta]
      simp only [List.length_append, List.length_singleton,
        Nat.add_sub_cancel]
      rw [setLast_append]
      exact ⟨_, rfl⟩
    · exact ⟨_, rfl⟩
  · simp only [larsBody, stopPhase, updatePhase, hpath1.1, hpath1.2]
    split_ifs with h
    · simp only [InterpolateBeta]
      simp only [List.length_append, List.length_singleton,
        Nat.add_sub_cancel, hlen]
      rw [setLast_append']
      exact ⟨_, rfl⟩
    · exact ⟨_, rfl⟩

/-- Once the guard is dead the loop is the identity. -/
theorem larsLoop_not_guard (fuel : ℕ) (s : LarsState)
    (h : ¬ larsGuard s) : larsLoop fuel s = s := by
  cases fuel <;> simp [larsLoop, h]

/-- Projections of the `DoLARS` entry sequence that do not depend on the
Elastic-Net branch. -/
theorem doLarsInit_proj (t : LarsState) :
    (doLarsInit t).lambda_path = t.lambda_path ++ [(argmaxAbs t.Xty t.p).1] ∧
    (doLarsInit t).beta_path = t.beta_path ++ [fun _ => 0] ∧
    (doLarsInit t).max_corr = (argmaxAbs t.Xty t.p).1 ∧
    (doLarsInit t).n_active = t.n_active ∧ (doLarsInit t).p = t.p ∧
    (doLarsInit t).Xty = t.Xty ∧
    (doLarsInit t).elastic_net = t.elastic_net ∧
    (doLarsInit t).active_set = t.active_set ∧
    (doLarsInit t).is_active = t.is_active ∧
    (doLarsInit t).Rdim = 0 ∧ (doLarsInit t).kick_out = false ∧
    (doLarsInit t).lasso = t.lasso ∧
    (doLarsInit t).desired_lambda = t.desired_lambda ∧
    (doLarsInit t).beta = (fun _ => 0) := by
  simp only [doLarsInit]
  split_ifs <;> simp

/-- The loop only ever appends to the two paths and keeps them parallel. -/
theorem larsLoop_paths (fuel : ℕ) (s : LarsState)
    (hlen : s.beta_path.length = s.lambda_path.length) :
    (∃ t, (larsLoop fuel s).beta_path = s.beta_path ++ t) ∧
    (∃ t, (larsLoop fuel s).lambda_path = s.lambda_path ++ t) ∧
    (larsLoop fuel s).beta_path.length =
      (larsLoop fuel s).lambda_path.length := by
  induction fuel generalizing s with
  | zero =>
    exact ⟨⟨[], by simp [larsLoop]⟩, ⟨[], by simp [larsLoop]⟩,
      by simpa [larsLoop]⟩
  | succ fuel ih =>
    by_cases hg : larsGuard s
    · obtain ⟨⟨b, hb⟩, ⟨lv, hl⟩⟩ := larsBody_paths s hlen
      have hlen' : (larsBody s).1.beta_path.length =
          (larsBody s).1.lambda_path.length := by
        rw [hb, hl]; simp [hlen]
      by_cases hbrk : (larsBody s).2
      · rw [show larsLoop (fuel + 1) s = (larsBody s).1 by
          simp [larsLoop, hg, hbrk]]
        exact ⟨⟨[b], hb⟩, ⟨[lv], hl⟩, hlen'⟩
      · rw [show larsLoop (fuel + 1) s = larsLoop fuel (larsBody s).1 by
          simp [larsLoop, hg, hbrk]]
        obtain ⟨⟨t1, ht1⟩, ⟨t2, ht2⟩, hq⟩ := ih (larsBody s).1 hlen'
        refine ⟨⟨b :: t1, ?_⟩, ⟨lv :: t2, ?_⟩, hq⟩
        · rw [ht1, hb]; simp
        · rw [ht2, hl]; simp
    · rw [larsLoop_not_guard _ _ hg]
      exact ⟨⟨[], by simp⟩, ⟨[], by simp⟩, hlen⟩

/-- C9 (amended): a `DoLARS` run creates fresh run-local state (`R` starts
`0 × 0`, `beta`, `y_hat`, `kick_out` are reset) but does NOT clear the
member containers: the coefficient and regularization paths keep every entry
of the previous run in front of the new ones (only `Init` resets
`active_set_`/`n_active_`, and nothing ever clears the paths), and the run
starts from whatever active set the object currently holds. -/
theorem C9_amended_paths_persist_across_runs (s : LarsState) (fuel : ℕ)
    (hlen : s.beta_path.length = s.lambda_path.length) :
    (∃ t, (DoLARS fuel s).beta_path = s.beta_path ++ t) ∧
    (∃ t, (DoLARS fuel s).lambda_path = s.lambda_path ++ t) ∧
    (doLarsInit s).Rdim = 0 ∧
    (doLarsInit s).beta = (fun _ => 0) ∧
    (doLarsInit s).kick_out = false ∧
    (doLarsInit s).n_active = s.n_active ∧
    (doLarsInit s).active_set = s.active_set ∧
    (doLarsInit s).is_active = s.is_active ∧
    (∀ X y nr pc c, (Init3 X y nr pc c s).beta_path = s.beta_path ∧
      (Init3 X y nr pc c s).lambda_path = s.lambda_path) := by
  obtain ⟨h1, h2, h3, h4, h5, h6, h7, h8, h9, h10, h11, h12, h13, h14⟩ :=
    doLarsInit_proj s
  have hlen' : (doLarsInit s).beta_path.length =
      (doLarsInit s).lambda_path.length := by
    rw [h1, h2]; simp [hlen]
  obtain ⟨⟨t1, ht1⟩, ⟨t2, ht2⟩, _⟩ := larsLoop_paths fuel (doLarsInit s) hlen'
  refine ⟨⟨(fun _ => 0) :: t1, ?_⟩, ⟨(argmaxAbs s.Xty s.p).1 :: t2, ?_⟩,
    h10, h14, h11, h4, h8, h9, fun X y nr pc c => ⟨rfl, rfl⟩⟩
  · show (larsLoop fuel (doLarsInit s)).beta_path = _
    rw [ht1, h2]; simp
  · show (larsLoop fuel (doLarsInit s)).lambda_path = _
    rw [ht2, h1]; simp

/-- Witness for the amended C9 theorem at a concrete object. -/
theorem C9_amended_paths_persist_across_runs_witness :
    larsNew.beta_path.length = larsNew.lambda_path.length ∧
    (doLarsInit larsNew).Rdim = 0 := by
  exact ⟨rfl, (C9_amended_paths_persist_across_runs larsNew 1 rfl).2.2.1⟩

/-- The 1 × 1 dataset `X = [1]` with response `y = [0]` used to refute the
fresh-state claim: the run is degenerate (all correlations are 0) so both
runs idle, exposing that nothing clears the paths between runs. -/
def Xc9 : ℕ → ℕ → ℝ := fun r j => if r = 0 ∧ j = 0 then 1 else 0

/-- The response for the C9 counterexample. -/
def yc9 : ℕ → ℝ := fun _ => 0

/-- The initialized object for the C9 counterexample. -/
def larsC9 : LarsState := Init3 Xc9 yc9 1 1 false larsNew

/-- C9 (counterexample): on `X = [1]`, `y = [0]` a first `DoLARS` run leaves
one entry in each path; a second `DoLARS` on the same instance (with no
intervening `Init`) returns paths of length 2 whose front entry is the first
run's — contradicting the claim that the paths are empty at the beginning of
every run and that the second run's paths contain only its own entries. -/
theorem C9_counterexample_second_run_keeps_old_entries :
    (DoLARS 1 larsC9).lambda_path = [0] ∧
    (DoLARS 1 larsC9).beta_path.length = 1 ∧
    (DoLARS 1 (DoLARS 1 larsC9)).lambda_path = [0, 0] ∧
    (DoLARS 1 (DoLARS 1 larsC9)).beta_path.length = 2 := by
  have hXty : larsC9.Xty = fun _ => 0 := by
    funext j
    simp [larsC9, Init3, dotn, yc9]
  have hrange1 : List.range 1 = [0] := rfl
  have hmi : argmaxAbs (fun _ => (0 : ℝ)) 1 = (0, 0) := by
    norm_num [argmaxAbs, hrange1]
  obtain ⟨i1, i2, i3, i4, i5, i6, i7, _⟩ := doLarsInit_proj larsC9
  have hbp : larsC9.beta_path = [] := rfl
  have hlp : larsC9.lambda_path = [] := rfl
  have hpp : larsC9.p = 1 := rfl
  have hmc : (doLarsInit larsC9).max_corr = 0 := by
    rw [i3, hXty, hpp, hmi]
  have hg1 : ¬ larsGuard (doLarsInit larsC9) := by
    rw [larsGuard, hmc]
    norm_num [EPS]
  have e1 : DoLARS 1 larsC9 = doLarsInit larsC9 :=
    larsLoop_not_guard 1 _ hg1
  obtain ⟨j1, j2, j3, j4, j5, j6, j7, _⟩ :=
    doLarsInit_proj (doLarsInit larsC9)
  have hXty2 : (doLarsInit larsC9).Xty = fun _ => 0 := by rw [i6, hXty]
  have hp2 : (doLarsInit larsC9).p = 1 := by rw [i5, hpp]
  have hmc2 : (doLarsInit (doLarsInit larsC9)).max_corr = 0 := by
    rw [j3, hXty2, hp2, hmi]
  have hg2 : ¬ larsGuard (doLarsInit (doLarsInit larsC9)) := by
    rw [larsGuard, hmc2]
    norm_num [EPS]
  have e2 : DoLARS 1 (doLarsInit larsC9) = doLarsInit (doLarsInit larsC9) :=
    larsLoop_not_guard 1 _ hg2
  refine ⟨?_, ?_, ?_, ?_⟩
  · rw [e1, i1, hXty, hpp, hmi, hlp]
    rfl
  · rw [e1, i2, hbp]
    rfl
  · rw [e1, e2, j1, hXty2, hp2, hmi, i1, hXty, hpp, hmi, hlp]
    rfl
  · rw [e1, e2, j2, i2, hbp]
    rfl

/-- The fields that `kickOrActivate` never writes. -/
theorem stage1_frame (s : LarsState) :
    (stage1 s).X = s.X ∧ (stage1 s).y = s.y ∧ (stage1 s).n = s.n ∧
    (stage1 s).p = s.p ∧ (stage1 s).Gram = s.Gram ∧
    (stage1 s).Xty = s.Xty ∧ (stage1 s).use_cholesky = s.use_cholesky ∧
    (stage1 s).lasso = s.lasso ∧
    (stage1 s).desired_lambda = s.desired_lambda ∧
    (stage1 s).elastic_net = s.elastic_net ∧
    (stage1 s).lambda_2 = s.lambda_2 ∧
    (stage1 s).beta_path = s.beta_path ∧
    (stage1 s).lambda_path = s.lambda_path ∧
    (stage1 s).beta = s.beta ∧ (stage1 s).y_hat = s.y_hat ∧
    (stage1 s).corr = s.corr ∧ (stage1 s).max_corr = s.max_corr ∧
    (stage1 s).kick_out = (if s.kick_out = true then false else s.kick_out) := by
  simp only [stage1, kickOrActivate, Deactivate, Activate]
  split_ifs <;> simp

/-- A fold that can only keep or shrink-to-a-positive its first component
preserves non-negativity of the first component. -/
theorem foldl_keep_nonneg {α : Type} (f : ℝ × ℕ → α → ℝ × ℕ)
    (hf : ∀ acc a, 0 ≤ acc.1 → 0 ≤ (f acc a).1) :
    ∀ (l : List α) (acc : ℝ × ℕ), 0 ≤ acc.1 → 0 ≤ (l.foldl f acc).1
  | [], _, h => h
  | a :: l, acc, h => foldl_keep_nonneg f hf l (f acc a) (hf acc a h)

/-- The normalization `1 / sqrt(·)` is non-negative in both branches. -/
theorem stageDir_nonneg (s : LarsState) : 0 ≤ (stageDir s).2 := by
  unfold stageDir dirChol dirGram
  split_ifs <;> exact one_div_nonneg.mpr (Real.sqrt_nonneg _)

/-- The scan step never drives gamma negative. -/
theorem gammaScan_nonneg (t : LarsState) (yd : ℕ → ℝ) (nz : ℝ)
    (hmc : 0 ≤ t.max_corr) (hnz : 0 ≤ nz) : 0 ≤ (gammaScan t yd nz).1 := by
  have h0 : 0 ≤ t.max_corr / nz := div_nonneg hmc hnz
  unfold gammaScan
  split_ifs
  · refine foldl_keep_nonneg _ ?_ _ _ h0
    intro acc a h
    unfold scanStep
    dsimp only
    split_ifs <;> simp_all <;> linarith
  · exact h0

/-- Projecting the first component out of a conditional triple. -/
theorem ite_fst_nonneg {c : Prop} [Decidable c] {a b : ℝ × ℕ × Bool}
    (ha : 0 ≤ a.1) (hb : 0 ≤ b.1) : 0 ≤ (if c then a else b).1 := by
  split_ifs with h
  · exact ha
  · exact hb

/-- The LASSO bound never drives gamma negative. -/
theorem lassoAdjust_nonneg (t : LarsState) (bd : ℕ → ℝ) (g : ℝ × ℕ)
    (hg : 0 ≤ g.1) : 0 ≤ (lassoAdjust t bd g).1 := by
  unfold lassoAdjust
  have hD : (0 : ℝ) ≤ DBL_MAX := by norm_num [DBL_MAX]
  have hfold : 0 ≤ (minFoldAux (fun i => -t.beta (aGet t i) / bd i)
      t.n_active).1 := by
    unfold minFoldAux
    refine foldl_keep_nonneg _ ?_ _ _ hD
    intro acc a h
    dsimp only
    split_ifs with hc
    · simp_all
      linarith
    · exact h
  split_ifs with h
  · exact ite_fst_nonneg (by simpa using hfold) (by simpa using hg)
  · simpa using hg

/-- The step length `gamma` used by an iteration is non-negative whenever the
running maximal correlation is. -/
theorem stageLasso_nonneg (s : LarsState) (hmc : 0 ≤ s.max_corr) :
    0 ≤ (stageLasso s).1 := by
  have hmc1 : 0 ≤ (stage1 s).max_corr := by
    rw [(stage1_frame s).2.2.2.2.2.2.2.2.2.2.2.2.2.2.2.2.1]
    exact hmc
  exact lassoAdjust_nonneg _ _ _
    (gammaScan_nonneg _ _ _ hmc1 (stageDir_nonneg s))

/-- Projections of `updatePhase`. -/
theorem updatePhase_proj (s1 : LarsState) (bd yd : ℕ → ℝ) (nz : ℝ)
    (gcb : ℝ × ℕ × Bool) :
    (updatePhase s1 bd yd nz gcb).lambda_path =
      s1.lambda_path ++ [s1.max_corr - gcb.1 * nz] ∧
    (updatePhase s1 bd yd nz gcb).max_corr = s1.max_corr - gcb.1 * nz ∧
    (updatePhase s1 bd yd nz gcb).beta_path.length =
      s1.beta_path.length + 1 ∧
    (updatePhase s1 bd yd nz gcb).lasso = s1.lasso ∧
    (updatePhase s1 bd yd nz gcb).desired_lambda = s1.desired_lambda := by
  simp [updatePhase]

/-- The non-increasing order used for the regularization path. -/
def nonInc (l : List ℝ) : Prop := List.Chain' (fun a b => b ≤ a) l

theorem nonInc_append (l : List ℝ) (v w : ℝ) (h : nonInc l)
    (hl : l.getLast? = some w) (hvw : v ≤ w) : nonInc (l ++ [v]) := by
  rw [nonInc, List.chain'_append]
  refine ⟨h, List.chain'_singleton v, ?_⟩
  intro x hx z hz
  rw [hl] at hx
  simp at hx hz
  subst hx
  subst hz
  exact hvw

/-- The regularization path stays non-increasing through the whole loop,
given that it is non-increasing on entry, that its last entry is the
running `max_corr`, and that LASSO's target is not above `max_corr`. -/
theorem larsLoop_nonInc (fuel : ℕ) (s : LarsState)
    (h1 : nonInc s.lambda_path)
    (h2 : s.lambda_path.getLast? = some s.max_corr)
    (h3 : s.lasso = true → s.desired_lambda ≤ s.max_corr)
    (hlen : s.beta_path.length = s.lambda_path.length) :
    nonInc (larsLoop fuel s).lambda_path := by
  induction fuel generalizing s with
  | zero => simpa [larsLoop] using h1
  | succ fuel ih =>
    by_cases hg : larsGuard s
    · have hmc0 : 0 ≤ s.max_corr := by
        have := hg.2
        rw [EPS] at this
        norm_num at this
        linarith
      have hgnn : 0 ≤ (stageLasso s).1 * (stageDir s).2 :=
        mul_nonneg (stageLasso_nonneg s hmc0) (stageDir_nonneg s)
      have hf := stage1_frame s
      obtain ⟨u1, u2, u3, u4, u5⟩ :=
        updatePhase_proj (stage1 s) (stageDir s).1 (stageYd s)
          (stageDir s).2 (stageLasso s)
      rw [hf.2.2.2.2.2.2.2.2.2.2.2.2.1] at u1
      rw [hf.2.2.2.2.2.2.2.2.2.2.2.2.2.2.2.2.1] at u1 u2
      rw [hf.2.2.2.2.2.2.2.1] at u4
      rw [hf.2.2.2.2.2.2.2.2.1] at u5
      set mc' := s.max_corr - (stageLasso s).1 * (stageDir s).2 with hmc'
      have hmle : mc' ≤ s.max_corr := by rw [hmc']; linarith
      have hniu : nonInc (updatePhase (stage1 s) (stageDir s).1 (stageYd s)
          (stageDir s).2 (stageLasso s)).lambda_path := by
        rw [u1]
        exact nonInc_append _ _ _ h1 h2 hmle
      by_cases hbrk : (larsBody s).2
      · rw [show larsLoop (fuel + 1) s = (larsBody s).1 by
          simp [larsLoop, hg, hbrk]]
        have hbrk' : (updatePhase (stage1 s) (stageDir s).1 (stageYd s)
            (stageDir s).2 (stageLasso s)).lasso = true ∧
            (updatePhase (stage1 s) (stageDir s).1 (stageYd s)
              (stageDir s).2 (stageLasso s)).max_corr ≤
            (updatePhase (stage1 s) (stageDir s).1 (stageYd s)
              (stageDir s).2 (stageLasso s)).desired_lambda := by
        
          by_contra hcon
          simp only [larsBody, stopPhase] at hbrk
          rw [if_neg hcon] at hbrk
          exact Bool.false_ne_true hbrk
        have hbody1 : (larsBody s).1 = InterpolateBeta
            (updatePhase (stage1 s) (stageDir s).1 (stageYd s)
              (stageDir s).2 (stageLasso s)).max_corr
            (updatePhase (stage1 s) (stageDir s).1 (stageYd s)
              (stageDir s).2 (stageLasso s)) := by
          simp only [larsBody, stopPhase]
          rw [if_pos hbrk']
        rw [hbody1]
        simp only [InterpolateBeta]
        have hbp : (updatePhase (stage1 s) (stageDir s).1 (stageYd s)
            (stageDir s).2 (stageLasso s)).beta_path.length =
            s.lambda_path.length + 1 := by
          rw [u3, hf.2.2.2.2.2.2.2.2.2.2.2.1, hlen]
        rw [hbp, u1, u5]
        have hpos : s.lambda_path.length + 1 - 1 = s.lambda_path.length := by
          omega
        rw [hpos, setLast_append']
        refine nonInc_append _ _ _ h1 h2 ?_
        have hl : s.lasso = true := by
          rw [← u4]
          exact hbrk'.1
        exact h3 hl
      · rw [show larsLoop (fuel + 1) s = larsLoop fuel (larsBody s).1 by
          simp [larsLoop, hg, hbrk]]
        have hbody1 : (larsBody s).1 = updatePhase (stage1 s) (stageDir s).1
            (stageYd s) (stageDir s).2 (stageLasso s) := by
          simp only [larsBody, stopPhase]
          split_ifs with hc
          · exfalso
            apply hbrk
            simp only [larsBody, stopPhase]
            rw [if_pos hc]
          · rfl
        have hnb : ¬ ((updatePhase (stage1 s) (stageDir s).1 (stageYd s)
            (stageDir s).2 (stageLasso s)).lasso = true ∧
            (updatePhase (stage1 s) (stageDir s).1 (stageYd s)
              (stageDir s).2 (stageLasso s)).max_corr ≤
            (updatePhase (stage1 s) (stageDir s).1 (stageYd s)
              (stageDir s).2 (stageLasso s)).desired_lambda) := by
          intro hc
          apply hbrk
          simp only [larsBody, stopPhase]
          rw [if_pos hc]
        refine ih _ ?_ ?_ ?_ ?_
        · rw [hbody1]
          exact hniu
        · rw [hbody1, u1, u2]
          simp
        · rw [hbody1, u4, u5, u2]
          intro hl
          rcases not_and_or.mp hnb with hc | hc
          · exfalso
            apply hc
            rw [u4]
            exact hl
          · rw [u2, u5] at hc
            push_neg at hc
            exact le_of_lt hc
        · rw [hbody1, u1]
          have hfb : (updatePhase (stage1 s) (stageDir s).1 (stageYd s)
              (stageDir s).2 (stageLasso s)).beta_path.length =
              s.beta_path.length + 1 := by
            rw [u3, hf.2.2.2.2.2.2.2.2.2.2.2.1]
          rw [hfb]
          simp [hlen]
    · rw [larsLoop_not_guard _ _ hg]
      exact h1

/-- C4: from a freshly initialized object, after every iteration (any fuel)
the coefficient path and the regularization path have equal length; each
iteration appends exactly one entry to each (on top of the initial all-zero
vector / maximal-correlation pair pushed by the entry sequence); and the
regularization path is non-increasing — each appended value
`max_corr - gamma*normalization` is at most its predecessor, and the whole
path stays sorted provided LASSO's target does not exceed the initial
maximal correlation (otherwise the final interpolation overwrite
extrapolates above the start of the path). -/
theorem C4_path_lengths_equal_and_nonincreasing (s : LarsState) (fuel : ℕ)
    (hb : s.beta_path = []) (hl : s.lambda_path = [])
    (hd : s.lasso = true → s.desired_lambda ≤ (argmaxAbs s.Xty s.p).1) :
    (DoLARS fuel s).beta_path.length = (DoLARS fuel s).lambda_path.length ∧
    (∀ t : LarsState, t.beta_path.length = t.lambda_path.length →
      (∃ b, (larsBody t).1.beta_path = t.beta_path ++ [b]) ∧
      (∃ lv, (larsBody t).1.lambda_path = t.lambda_path ++ [lv])) ∧
    (doLarsInit s).beta_path = [fun _ => 0] ∧
    (doLarsInit s).lambda_path = [(argmaxAbs s.Xty s.p).1] ∧
    nonInc (DoLARS fuel s).lambda_path := by
  obtain ⟨i1, i2, i3, _, _, _, _, _, _, _, _, i12, i13, _⟩ := doLarsInit_proj s
  rw [hb] at i2
  rw [hl] at i1
  simp only [List.nil_append] at i1 i2
  have hlen0 : (doLarsInit s).beta_path.length =
      (doLarsInit s).lambda_path.length := by
    rw [i1, i2]
    simp
  refine ⟨(larsLoop_paths fuel _ hlen0).2.2,
    fun t ht => larsBody_paths t ht, i2, i1, ?_⟩
  refine larsLoop_nonInc fuel _ ?_ ?_ ?_ hlen0
  · rw [i1]
    exact List.chain'_singleton _
  · rw [i1, i3]
    rfl
  · rw [i12, i13, i3]
    exact hd

/-- The object used to witness C4: `Init(X, y, false, 0)` on the 1 × 1
dataset `X = [1]`, `y = [1]` (LASSO mode with target 0). -/
def larsC4 : LarsState := Init4 Xc9 yc2 1 1 false 0 larsNew

/-- Witness for C4: the hypotheses hold for `larsC4` (fresh empty paths, and
the LASSO target 0 is at most the initial maximal correlation 1), and the
conclusion follows by applying the theorem. -/
theorem C4_path_lengths_equal_and_nonincreasing_witness :
    (larsC4.beta_path = [] ∧ larsC4.lambda_path = [] ∧
     (larsC4.lasso = true →
       larsC4.desired_lambda ≤ (argmaxAbs larsC4.Xty larsC4.p).1)) ∧
    nonInc (DoLARS 2 larsC4).lambda_path := by
  have hXty : larsC4.Xty 0 = 1 := by
    norm_num [larsC4, Init4, Init3, dotn, Xc9, yc2]
  have harg : (argmaxAbs larsC4.Xty larsC4.p).1 = 1 := by
    have hp : larsC4.p = 1 := rfl
    have hrange1 : List.range 1 = [0] := rfl
    rw [hp, argmaxAbs, hrange1]
    simp only [List.foldl_cons, List.foldl_nil, hXty]
    norm_num
  have hhyp : larsC4.lasso = true →
      larsC4.desired_lambda ≤ (argmaxAbs larsC4.Xty larsC4.p).1 := by
    intro _
    rw [harg]
    norm_num [larsC4, Init4, Init3]
  exact ⟨⟨rfl, rfl, hhyp⟩,
    (C4_path_lengths_equal_and_nonincreasing larsC4 2 rfl rfl hhyp).2.2.2.2⟩

/-- With no pending kick-out, the top of the iteration activates
`change_ind`. -/
theorem stage1_activate (t : LarsState) (hk : t.kick_out = false) :
    (stage1 t).n_active = t.n_active + 1 ∧
    (stage1 t).active_set = t.active_set ++ [t.change_ind] ∧
    (stage1 t).kick_out = false ∧
    (stage1 t).is_active =
      (fun j => if j = t.change_ind then true else t.is_active j) := by
  unfold stage1 kickOrActivate
  rw [hk]
  simp only [Bool.false_eq_true, if_false]
  split_ifs with hc <;> simp [Activate, hk]

/-- With a pending kick-out, the top of the iteration clears the flag,
downdates `R` in the Cholesky branch, and deactivates the flagged
position. -/
theorem stage1_deactivate (t : LarsState) (hk : t.kick_out = true) :
    (stage1 t).n_active = t.n_active - 1 ∧
    (stage1 t).active_set = t.active_set.eraseIdx t.change_ind ∧
    (stage1 t).kick_out = false ∧
    (stage1 t).is_active = (fun j =>
      if j = t.active_set.getD t.change_ind u32neg1 then false
      else t.is_active j) ∧
    (t.use_cholesky = true →
      (stage1 t).R = CholeskyDelete t.R t.Rdim t.change_ind ∧
      (stage1 t).Rdim = t.Rdim - 1) ∧
    (t.use_cholesky = false → (stage1 t).R = t.R ∧ (stage1 t).Rdim = t.Rdim) := by
  unfold stage1 kickOrActivate
  rw [hk]
  simp only [if_true]
  split_ifs with hc <;> simp [Deactivate, hc]

/-- The bookkeeping fields written by `updatePhase`. -/
theorem updatePhase_proj2 (s1 : LarsState) (bd yd : ℕ → ℝ) (nz : ℝ)
    (gcb : ℝ × ℕ × Bool) :
    (updatePhase s1 bd yd nz gcb).n_active = s1.n_active ∧
    (updatePhase s1 bd yd nz gcb).active_set = s1.active_set ∧
    (updatePhase s1 bd yd nz gcb).is_active = s1.is_active ∧
    (updatePhase s1 bd yd nz gcb).kick_out = gcb.2.2 ∧
    (updatePhase s1 bd yd nz gcb).change_ind = gcb.2.1 ∧
    (updatePhase s1 bd yd nz gcb).p = s1.p ∧
    (updatePhase s1 bd yd nz gcb).R = s1.R ∧
    (updatePhase s1 bd yd nz gcb).Rdim = s1.Rdim := by
  simp [updatePhase]

/-- `InterpolateBeta` touches only the two paths. -/
theorem interpolate_frame (ul : ℝ) (u : LarsState) :
    (InterpolateBeta ul u).n_active = u.n_active ∧
    (InterpolateBeta ul u).active_set = u.active_set ∧
    (InterpolateBeta ul u).is_active = u.is_active ∧
    (InterpolateBeta ul u).kick_out = u.kick_out ∧
    (InterpolateBeta ul u).change_ind = u.change_ind ∧
    (InterpolateBeta ul u).p = u.p ∧
    (InterpolateBeta ul u).R = u.R ∧
    (InterpolateBeta ul u).Rdim = u.Rdim ∧
    (InterpolateBeta ul u).beta = u.beta ∧
    (InterpolateBeta ul u).max_corr = u.max_corr ∧
    (InterpolateBeta ul u).lasso = u.lasso := by
  simp [InterpolateBeta]

/-- Without LASSO mode an iteration never breaks, never sets the kick-out
flag, and grows the active set by exactly the one recorded variable. -/
theorem larsBody_no_lasso (t : LarsState) (hlasso : t.lasso = false)
    (hk : t.kick_out = false) :
    (larsBody t).1.n_active = t.n_active + 1 ∧
    (larsBody t).1.kick_out = false ∧
    (larsBody t).2 = false ∧
    (larsBody t).1.lasso = false ∧
    (larsBody t).1.p = t.p ∧
    (larsBody t).1.active_set = t.active_set ++ [t.change_ind] := by
  have hs1 := stage1_activate t hk
  have hf := stage1_frame t
  have hlasso1 : (stage1 t).lasso = false := by
    rw [hf.2.2.2.2.2.2.2.1]
    exact hlasso
  have hsl : (stageLasso t).2.2 = false := by
    unfold stageLasso lassoAdjust
    rw [hlasso1]
    simp
  obtain ⟨q1, q2, q3, q4, q5, q6, _, _⟩ :=
    updatePhase_proj2 (stage1 t) (stageDir t).1 (stageYd t)
      (stageDir t).2 (stageLasso t)
  obtain ⟨_, _, _, w4, w5⟩ :=
    updatePhase_proj (stage1 t) (stageDir t).1 (stageYd t)
      (stageDir t).2 (stageLasso t)
  have hul : (updatePhase (stage1 t) (stageDir t).1 (stageYd t)
      (stageDir t).2 (stageLasso t)).lasso = false := by
    rw [w4, hlasso1]
  have hnb : ¬ ((updatePhase (stage1 t) (stageDir t).1 (stageYd t)
      (stageDir t).2 (stageLasso t)).lasso = true ∧
      (updatePhase (stage1 t) (stageDir t).1 (stageYd t)
        (stageDir t).2 (stageLasso t)).max_corr ≤
      (updatePhase (stage1 t) (stageDir t).1 (stageYd t)
        (stageDir t).2 (stageLasso t)).desired_lambda) := by
    intro hc
    rw [hul] at hc
    exact Bool.false_ne_true hc.1
  have hbody : larsBody t = (updatePhase (stage1 t) (stageDir t).1 (stageYd t)
      (stageDir t).2 (stageLasso t), false) := by
    simp only [larsBody, stopPhase]
    rw [if_neg hnb]
  rw [hbody]
  refine ⟨?_, ?_, rfl, hul, ?_, ?_⟩
  · rw [q1, hs1.1]
  · rw [q4, hsl]
  · rw [q6, hf.2.2.2.1]
  · rw [q2, hs1.2.1]

/-- Without LASSO mode the loop keeps `kick_out` dead, preserves `p`, and
never pushes `n_active` beyond `p`. -/
theorem larsLoop_inv_no_lasso (fuel : ℕ) (t : LarsState)
    (hl : t.lasso = false) (hk : t.kick_out = false) (hp : t.n_active ≤ t.p) :
    (larsLoop fuel t).kick_out = false ∧ (larsLoop fuel t).lasso = false ∧
    (larsLoop fuel t).p = t.p ∧ (larsLoop fuel t).n_active ≤ t.p := by
  induction fuel generalizing t with
  | zero => exact ⟨hk, hl, rfl, hp⟩
  | succ fuel ih =>
    by_cases hg : larsGuard t
    · obtain ⟨b1, b2, b3, b4, b5, _⟩ := larsBody_no_lasso t hl hk
      rw [show larsLoop (fuel + 1) t = larsLoop fuel (larsBody t).1 by
        simp [larsLoop, hg, b3]]
      have hp' : (larsBody t).1.n_active ≤ (larsBody t).1.p := by
        rw [b1, b5]
        exact hg.1
      obtain ⟨c1, c2, c3, c4⟩ := ih (larsBody t).1 b4 b2 hp'
      rw [b5] at c3 c4
      exact ⟨c1, c2, c3, c4⟩
    · rw [larsLoop_not_guard _ _ hg]
      exact ⟨hk, hl, rfl, hp⟩

/-- Without LASSO mode, `p - n_active` units of fuel suffice: past that the
guard is dead and extra fuel changes nothing. -/
theorem larsLoop_stable_no_lasso (fuel : ℕ) (t : LarsState)
    (hl : t.lasso = false) (hk : t.kick_out = false)
    (hfuel : t.p ≤ t.n_active + fuel) :
    ¬ larsGuard (larsLoop fuel t) ∧
    ∀ g, larsLoop (fuel + g) t = larsLoop fuel t := by
  induction fuel generalizing t with
  | zero =>
    have hng : ¬ larsGuard t := fun hc => absurd hc.1 (by omega)
    refine ⟨by simpa [larsLoop] using hng, fun g => ?_⟩
    rw [Nat.zero_add, larsLoop_not_guard _ _ hng]
    simp [larsLoop]
  | succ fuel ih =>
    by_cases hg : larsGuard t
    · obtain ⟨b1, b2, b3, b4, b5, _⟩ := larsBody_no_lasso t hl hk
      have hfuel' : (larsBody t).1.p ≤ (larsBody t).1.n_active + fuel := by
        rw [b1, b5]
        omega
      obtain ⟨c1, c2⟩ := ih (larsBody t).1 b4 b2 hfuel'
      constructor
      · rw [show larsLoop (fuel + 1) t = larsLoop fuel (larsBody t).1 by
          simp [larsLoop, hg, b3]]
        exact c1
      · intro g
        rw [show fuel + 1 + g = (fuel + g) + 1 by omega]
        rw [show larsLoop ((fuel + g) + 1) t =
            larsLoop (fuel + g) (larsBody t).1 by
          simp [larsLoop, hg, b3]]
        rw [show larsLoop (fuel + 1) t = larsLoop fuel (larsBody t).1 by
          simp [larsLoop, hg, b3]]
        exact c2 g
    · constructor
      · rw [larsLoop_not_guard _ _ hg]
        exact hg
      · intro g
        rw [larsLoop_not_guard _ _ hg, larsLoop_not_guard _ _ hg]

/-- C7: when LASSO mode is disabled, no iteration removes a variable (the
kick-out flag is never raised and each iteration appends exactly the one
recorded variable, growing `n_active` by one), the loop never runs past `p`
iterations (all fuel beyond `p` is irrelevant), and the state after `p`
iterations has either all `p` variables active or a maximal correlation at
most `EPS`. -/
theorem C7_pure_lars_grows_and_terminates (s : LarsState) (fuel : ℕ)
    (hlasso : s.lasso = false) (hna : s.n_active = 0) :
    (∀ t : LarsState, t.lasso = false → t.kick_out = false →
      (larsBody t).1.n_active = t.n_active + 1 ∧
      (larsBody t).1.kick_out = false ∧
      (larsBody t).1.active_set = t.active_set ++ [t.change_ind] ∧
      (larsBody t).2 = false) ∧
    (DoLARS fuel s).kick_out = false ∧
    (s.p ≤ fuel → DoLARS fuel s = DoLARS s.p s) ∧
    ((DoLARS s.p s).n_active = s.p ∨ (DoLARS s.p s).max_corr ≤ EPS) := by
  obtain ⟨_, _, _, i4, i5, _, _, _, _, _, i11, i12, _, _⟩ := doLarsInit_proj s
  have hl0 : (doLarsInit s).lasso = false := by rw [i12]; exact hlasso
  have hp0 : (doLarsInit s).n_active ≤ (doLarsInit s).p := by
    rw [i4, i5, hna]
    exact Nat.zero_le _
  have hfuel0 : (doLarsInit s).p ≤ (doLarsInit s).n_active + s.p := by
    rw [i4, i5]
    omega
  obtain ⟨hstop, hstab⟩ := larsLoop_stable_no_lasso s.p _ hl0 i11 hfuel0
  refine ⟨?_, ?_, ?_, ?_⟩
  · intro t htl htk
    obtain ⟨b1, b2, b3, _, _, b6⟩ := larsBody_no_lasso t htl htk
    exact ⟨b1, b2, b6, b3⟩
  · exact (larsLoop_inv_no_lasso fuel _ hl0 i11 hp0).1
  · intro hpf
    show larsLoop fuel _ = larsLoop s.p _
    rw [show fuel = s.p + (fuel - s.p) by omega]
    exact hstab (fuel - s.p)
  · have hle : (larsLoop s.p (doLarsInit s)).n_active ≤ s.p := by
      have := (larsLoop_inv_no_lasso s.p _ hl0 i11 hp0).2.2.2
      rw [i5] at this
      exact this
    have hpeq : (larsLoop s.p (doLarsInit s)).p = s.p := by
      have := (larsLoop_inv_no_lasso s.p _ hl0 i11 hp0).2.2.1
      rw [i5] at this
      exact this
    rw [larsGuard, not_and_or] at hstop
    rcases hstop with hc | hc
    · left
      rw [hpeq] at hc
      show (larsLoop s.p (doLarsInit s)).n_active = s.p
      omega
    · right
      push_neg at hc
      exact hc

/-- Witness for C7 at the 1 × 1 instance with LASSO off. -/
theorem C7_pure_lars_grows_and_terminates_witness :
    (larsC9.lasso = false ∧ larsC9.n_active = 0 ∧ larsC9.p ≤ 2) ∧
    DoLARS 2 larsC9 = DoLARS larsC9.p larsC9 := by
  refine ⟨⟨rfl, rfl, by norm_num [larsC9, Init3]⟩, ?_⟩
  exact (C7_pure_lars_grows_and_terminates larsC9 2 rfl rfl).2.2.1
    (by norm_num [larsC9, Init3])

/-! ### Fold characterizations used for the sparsity invariant -/

theorem getD_eraseIdx (l : List ℕ) (k i d : ℕ) :
    (l.eraseIdx k).getD i d =
      if i < k then l.getD i d else l.getD (i + 1) d := by
  simp only [List.getD_eq_getElem?_getD, List.getElem?_eraseIdx]
  split_ifs <;> rfl

/-- Value of the sequential beta update at one coordinate: the start value
plus the increments of every position mapped onto that coordinate. -/
theorem foldUpdate_val (t : LarsState) (bd : ℕ → ℝ) (γ : ℝ) (n : ℕ)
    (b0 : ℕ → ℝ) (v : ℕ) :
    ((List.range n).foldl
      (fun b i => Function.update b (aGet t i) (b (aGet t i) + γ * bd i))
      b0) v =
    b0 v + ∑ i in (Finset.range n).filter (fun i => aGet t i = v), γ * bd i := by
  induction n generalizing b0 with
  | zero => simp
  | succ n ih =>
    rw [List.range_succ, List.foldl_append, List.foldl_cons, List.foldl_nil]
    rw [Finset.range_succ, Finset.filter_insert]
    by_cases hv : aGet t n = v
    · rw [if_pos hv]
      rw [Finset.sum_insert (by simp)]
      have : Function.update
          ((List.range n).foldl (fun b i => Function.update b (aGet t i)
            (b (aGet t i) + γ * bd i)) b0) (aGet t n)
          (((List.range n).foldl (fun b i => Function.update b (aGet t i)
            (b (aGet t i) + γ * bd i)) b0) (aGet t n) + γ * bd n) v =
          ((List.range n).foldl (fun b i => Function.update b (aGet t i)
            (b (aGet t i) + γ * bd i)) b0) (aGet t n) + γ * bd n := by
        rw [hv]
        simp [Function.update]
      rw [this, hv, ih]
      ring
    · rw [if_neg hv]
      have : Function.update
          ((List.range n).foldl (fun b i => Function.update b (aGet t i)
            (b (aGet t i) + γ * bd i)) b0) (aGet t n)
          (((List.range n).foldl (fun b i => Function.update b (aGet t i)
            (b (aGet t i) + γ * bd i)) b0) (aGet t n) + γ * bd n) v =
          ((List.range n).foldl (fun b i => Function.update b (aGet t i)
            (b (aGet t i) + γ * bd i)) b0) v := by
        simp [Function.update]
        intro hc
        exact absurd hc.symm hv
      rw [this, ih]

/-- The strictly-positive running minimum: either nothing positive was seen
(the accumulator is untouched), or the result is the value at the recorded
position, positive, and ≤ every positive candidate; it never exceeds
`DBL_MAX`. -/
theorem minFoldAux_spec (val : ℕ → ℝ) (n : ℕ) :
    (minFoldAux val n = (DBL_MAX, u32neg1) ∨
      ((minFoldAux val n).2 < n ∧
       (minFoldAux val n).1 = val (minFoldAux val n).2 ∧
       0 < (minFoldAux val n).1)) ∧
    (∀ i, i < n → 0 < val i → (minFoldAux val n).1 ≤ val i) ∧
    (minFoldAux val n).1 ≤ DBL_MAX := by
  induction n with
  | zero =>
    refine ⟨Or.inl rfl, by omega, le_refl _⟩
  | succ n ih =>
    have hstep : minFoldAux val (n + 1) =
        (if 0 < val n ∧ val n < (minFoldAux val n).1
         then (val n, n) else minFoldAux val n) := by
      unfold minFoldAux
      rw [List.range_succ, List.foldl_append, List.foldl_cons, List.foldl_nil]
    rw [hstep]
    split_ifs with hc
    · refine ⟨Or.inr ⟨by omega, rfl, hc.1⟩, ?_, le_of_lt
        (lt_of_lt_of_le hc.2 ih.2.2)⟩
      intro i hi hpos
      rcases Nat.lt_succ_iff_lt_or_eq.mp hi with hi' | hi'
      · exact le_of_lt (lt_of_lt_of_le hc.2 (ih.2.1 i hi' hpos))
      · subst hi'
        exact le_refl _
    · refine ⟨?_, ?_, ih.2.2⟩
      · rcases ih.1 with h | h
        · exact Or.inl h
        · exact Or.inr ⟨by omega, h.2.1, h.2.2⟩
      · intro i hi hpos
        rcases Nat.lt_succ_iff_lt_or_eq.mp hi with hi' | hi'
        · exact ih.2.1 i hi' hpos
        · subst hi'
          rcases not_and_or.mp hc with hc' | hc'
          · exact absurd hpos hc'
          · push_neg at hc'
            exact hc'

/-- One scan step keeps the recorded index either untouched or one of an
inactive variable below `p`. -/
theorem scanStep_ind (t : LarsState) (yd : ℕ → ℝ) (nz : ℝ) (acc : ℝ × ℕ)
    (a : ℕ) (ha : a < t.p)
    (hacc : acc.2 = u32neg1 ∨ (acc.2 < t.p ∧ t.is_active acc.2 = false)) :
    (scanStep t yd nz acc a).2 = u32neg1 ∨
    ((scanStep t yd nz acc a).2 < t.p ∧
     t.is_active (scanStep t yd nz acc a).2 = false) := by
  unfold scanStep
  by_cases h1 : t.is_active a = true
  · rw [if_pos h1]
    exact hacc
  · rw [if_neg h1]
    have h1' : t.is_active a = false := by
      revert h1
      cases t.is_active a <;> simp
    dsimp only
    split_ifs <;> first | exact hacc | exact Or.inr ⟨ha, h1'⟩

/-- The index recorded by the scan is either the untouched `(u32)(-1)` or an
index of an inactive variable below `p`. -/
theorem gammaScan_ind (t : LarsState) (yd : ℕ → ℝ) (nz : ℝ) :
    (gammaScan t yd nz).2 = u32neg1 ∨
    ((gammaScan t yd nz).2 < t.p ∧
     t.is_active (gammaScan t yd nz).2 = false) := by
  unfold gammaScan
  split_ifs with h
  · have key : ∀ (l : List ℕ) (acc : ℝ × ℕ), (∀ a ∈ l, a < t.p) →
        (acc.2 = u32neg1 ∨ (acc.2 < t.p ∧ t.is_active acc.2 = false)) →
        ((l.foldl (scanStep t yd nz) acc).2 = u32neg1 ∨
         ((l.foldl (scanStep t yd nz) acc).2 < t.p ∧
          t.is_active (l.foldl (scanStep t yd nz) acc).2 = false)) := by
      intro l
      induction l with
      | nil =>
        intro acc _ hacc
        exact hacc
      | cons a l ihl =>
        intro acc hmem hacc
        rw [List.foldl_cons]
        exact ihl _ (fun b hb => hmem b (List.mem_cons_of_mem a hb))
          (scanStep_ind t yd nz acc a (hmem a (List.mem_cons_self a l)) hacc)
    exact key _ _ (fun a ha => List.mem_range.mp ha) (Or.inl rfl)
  · exact Or.inl rfl

/-! ### The sparsity invariant (C5) -/

/-- `p_` fits in a `u32` index space, so `(u32)(-1)` is never a variable. -/
def pBound (s : LarsState) : Prop := s.p ≤ u32neg1

/-- Coefficients of inactive variables are exactly zero. -/
def betaZero (s : LarsState) : Prop :=
  ∀ j, j < s.p → s.is_active j = false → s.beta j = 0

/-- Inactive variables are not in the ordered active list. -/
def setConsist (s : LarsState) : Prop :=
  ∀ j, j < s.p → s.is_active j = false → j ∉ s.active_set

/-- A variable below `p` occupies at most one position of the active list. -/
def setUniq (s : LarsState) : Prop :=
  ∀ i1 i2, i1 < s.active_set.length → i2 < s.active_set.length →
    aGet s i1 = aGet s i2 → aGet s i1 < s.p → i1 = i2

/-- Outside a pending kick-out, `change_ind` names an inactive variable (or
the out-of-range `(u32)(-1)`). -/
def freshInd (s : LarsState) : Prop :=
  s.kick_out = false → s.change_ind < s.p → s.is_active s.change_ind = false

/-- A pending kick-out flags a variable whose coefficient is already exactly
zero (the previous step length was its sign-crossing ratio). -/
def kickPend (s : LarsState) : Prop :=
  s.kick_out = true → aGet s s.change_ind < s.p →
    s.beta (aGet s s.change_ind) = 0

/-- The last coefficient snapshot is the current estimator. -/
def lastSnap (s : LarsState) : Prop := s.beta_path.getLast? = some s.beta

/-- The inductive invariant for the sparsity claim. -/
def Inv5 (s : LarsState) : Prop :=
  pBound s ∧ betaZero s ∧ setConsist s ∧ setUniq s ∧ freshInd s ∧
  kickPend s ∧ lastSnap s

theorem getD_of_getLast? {α : Type} (l : List α) (x d : α)
    (h : l.getLast? = some x) : l.getD (l.length - 1) d = x := by
  have hne : l ≠ [] := by
    intro hc
    rw [hc] at h
    exact Option.noConfusion h
  rw [List.getLast?_eq_getLast l hne] at h
  have := Option.some.inj h
  rw [List.getD_eq_getElem _ _ (by
    have := List.length_pos.mpr hne
    omega)]
  rw [← this, List.getLast_eq_getElem]

/-- Either an iteration does not break and its result is the update-phase
state, or it breaks and its result interpolates that state. -/
theorem larsBody_cases (s : LarsState) :
    ((larsBody s).2 = false ∧ (larsBody s).1 =
      updatePhase (stage1 s) (stageDir s).1 (stageYd s) (stageDir s).2
        (stageLasso s)) ∨
    ((larsBody s).2 = true ∧ (larsBody s).1 =
      InterpolateBeta (updatePhase (stage1 s) (stageDir s).1 (stageYd s)
          (stageDir s).2 (stageLasso s)).max_corr
        (updatePhase (stage1 s) (stageDir s).1 (stageYd s) (stageDir s).2
          (stageLasso s))) := by
  simp only [larsBody, stopPhase]
  split_ifs with h
  · exact Or.inr ⟨rfl, rfl⟩
  · exact Or.inl ⟨rfl, rfl⟩

/-- The top of the iteration preserves the structural part of the sparsity
invariant. -/
theorem stage1_sparse (s : LarsState) (h : Inv5 s) :
    pBound (stage1 s) ∧ betaZero (stage1 s) ∧ setConsist (stage1 s) ∧
    setUniq (stage1 s) ∧
    (stage1 s).active_set.length ≤ s.active_set.length + 1 := by
  obtain ⟨hp, hbz, hsc, hsu, hfi, hkp, _⟩ := h
  have hp' : s.p ≤ u32neg1 := hp
  have hfr := stage1_frame s
  have hpeq : (stage1 s).p = s.p := hfr.2.2.2.1
  have hbeq : (stage1 s).beta = s.beta := hfr.2.2.2.2.2.2.2.2.2.2.2.2.2.1
  by_cases hk : s.kick_out = true
  · obtain ⟨d1, d2, d3, d4, _⟩ := stage1_deactivate s hk
    have hv := hkp hk
    refine ⟨?_, ?_, ?_, ?_, ?_⟩
    · rw [pBound, hpeq]
      exact hp
    · intro j hj hja
      rw [hpeq] at hj
      simp only [d4] at hja
      rw [hbeq]
      by_cases hjv : j = s.active_set.getD s.change_ind u32neg1
      · subst hjv
        exact hv hj
      · rw [if_neg hjv] at hja
        exact hbz j hj hja
    · intro j hj hja
      rw [hpeq] at hj
      simp only [d4] at hja
      rw [d2]
      by_cases hjv : j = s.active_set.getD s.change_ind u32neg1
      · subst hjv
        intro hmem
        have hne : s.active_set.getD s.change_ind u32neg1 ≠ u32neg1 := by
          omega
        have hlt : s.change_ind < s.active_set.length := by
          by_contra hc
          rw [List.getD_eq_default _ _ (by omega)] at hne
          exact hne rfl
        obtain ⟨q, hq, hqv⟩ := List.mem_iff_getElem.mp hmem
        have hq' : (s.active_set.eraseIdx s.change_ind).getD q u32neg1 =
            s.active_set.getD s.change_ind u32neg1 := by
          rw [List.getD_eq_getElem _ _ hq, hqv]
        rw [getD_eraseIdx] at hq'
        have hqlen : (if q < s.change_ind then q else q + 1) <
            s.active_set.length := by
          rw [List.length_eraseIdx, if_pos hlt] at hq
          split_ifs <;> omega
        have hq'' : aGet s (if q < s.change_ind then q else q + 1) =
            aGet s s.change_ind := by
          rw [aGet, aGet]
          split_ifs with hcc
          · rw [if_pos hcc] at hq'
            exact hq'
          · rw [if_neg hcc] at hq'
            exact hq'
        have := hsu _ s.change_ind hqlen hlt hq'' (by rw [hq'']; exact hj)
        split_ifs at this <;> omega
      · rw [if_neg hjv] at hja
        intro hmem
        exact hsc j hj hja (List.mem_of_mem_eraseIdx hmem)
    · intro i1 i2 hi1 hi2 heq hlt
      rw [d2] at hi1 hi2
      have e1 : aGet (stage1 s) i1 =
          aGet s (if i1 < s.change_ind then i1 else i1 + 1) := by
        rw [aGet, d2, getD_eraseIdx, aGet]
        split_ifs <;> rfl
      have e2 : aGet (stage1 s) i2 =
          aGet s (if i2 < s.change_ind then i2 else i2 + 1) := by
        rw [aGet, d2, getD_eraseIdx, aGet]
        split_ifs <;> rfl
      have hl1 : (if i1 < s.change_ind then i1 else i1 + 1) <
          s.active_set.length := by
        rw [List.length_eraseIdx] at hi1
        split_ifs at hi1 <;> split_ifs <;> omega
      have hl2 : (if i2 < s.change_ind then i2 else i2 + 1) <
          s.active_set.length := by
        rw [List.length_eraseIdx] at hi2
        split_ifs at hi2 <;> split_ifs <;> omega
      have := hsu _ _ hl1 hl2 (by rw [← e1, ← e2, heq])
        (by rw [← e1]; rw [hpeq] at hlt; exact hlt)
      split_ifs at this <;> omega
    · rw [d2, List.length_eraseIdx]
      split_ifs <;> omega
  · have hk' : s.kick_out = false := by
      revert hk
      cases s.kick_out <;> simp
    obtain ⟨a1, a2, a3, a4⟩ := stage1_activate s hk'
    refine ⟨?_, ?_, ?_, ?_, ?_⟩
    · rw [pBound, hpeq]
      exact hp
    · intro j hj hja
      rw [hpeq] at hj
      simp only [a4] at hja
      rw [hbeq]
      by_cases hjv : j = s.change_ind
      · rw [if_pos hjv] at hja
        exact Bool.noConfusion hja
      · rw [if_neg hjv] at hja
        exact hbz j hj hja
    · intro j hj hja
      rw [hpeq] at hj
      simp only [a4] at hja
      rw [a2]
      by_cases hjv : j = s.change_ind
      · rw [if_pos hjv] at hja
        exact Bool.noConfusion hja
      · rw [if_neg hjv] at hja
        intro hmem
        rcases List.mem_append.mp hmem with hm | hm
        · exact hsc j hj hja hm
        · simp at hm
          exact hjv hm
    · intro i1 i2 hi1 hi2 heq hlt
      rw [hpeq] at hlt
      rw [a2, List.length_append, List.length_singleton] at hi1 hi2
      have egen : ∀ i, i < s.active_set.length + 1 →
          aGet (stage1 s) i = (if i < s.active_set.length then aGet s i
            else s.change_ind) := by
        intro i hi
        rw [aGet, a2]
        split_ifs with hc
        · rw [List.getD_eq_getElem _ _ (by simpa using Nat.lt_succ_of_lt hc),
              List.getElem_append_left hc, aGet,
              List.getD_eq_getElem _ _ hc]
        · have hieq : i = s.active_set.length := by omega
          subst hieq
          rw [List.getD_eq_getElem _ _ (by simp)]
          simp
      rw [egen i1 hi1] at heq hlt
      rw [egen i2 hi2] at heq
      by_cases hc1 : i1 < s.active_set.length <;>
        by_cases hc2 : i2 < s.active_set.length
      · rw [if_pos hc1] at heq hlt
        rw [if_pos hc2] at heq
        exact hsu i1 i2 hc1 hc2 heq hlt
      · rw [if_pos hc1] at heq hlt
        rw [if_neg hc2] at heq
        exfalso
        have hlt' : s.change_ind < s.p := by
          rw [← heq]
          exact hlt
        have hnm := hsc _ hlt' (hfi hk' hlt')
        apply hnm
        have hmem : aGet s i1 ∈ s.active_set := by
          rw [aGet, List.getD_eq_getElem _ _ hc1]
          exact List.getElem_mem _
        rw [heq] at hmem
        exact hmem
      · rw [if_neg hc1] at heq hlt
        rw [if_pos hc2] at heq
        exfalso
        have hnm := hsc _ hlt (hfi hk' hlt)
        apply hnm
        have hmem : aGet s i2 ∈ s.active_set := by
          rw [aGet, List.getD_eq_getElem _ _ hc2]
          exact List.getElem_mem _
        rw [← heq] at hmem
        exact hmem
      · omega
    · rw [a2]
      simp

theorem getD_append_last {α : Type} (l : List α) (a d : α) :
    (l ++ [a]).getD l.length d = a := by
  rw [List.getD_eq_getElem _ _ (by simp)]
  simp

theorem getD_append_lt {α : Type} (l : List α) (a d : α) (i : ℕ)
    (hi : i < l.length) : (l ++ [a]).getD i d = l.getD i d := by
  rw [List.getD_eq_getElem _ _ (by simp; omega),
      List.getElem_append_left hi, List.getD_eq_getElem _ _ hi]

theorem getLast?_set_last {α : Type} (l : List α) (v : α) (h : l ≠ []) :
    (l.set (l.length - 1) v).getLast? = some v := by
  have hlen : l.length - 1 < (l.set (l.length - 1) v).length := by
    rw [List.length_set]
    have := List.length_pos.mpr h
    omega
  rw [List.getLast?_eq_getElem?, List.length_set]
  rw [List.getElem?_eq_getElem (by rw [List.length_set]; exact (by
    have := List.length_pos.mpr h
    omega))]
  rw [List.getElem_set_self (by
    have := List.length_pos.mpr h
    omega)]

/-- If both interpolation sources vanish at a coordinate, so does the
overwritten last entry. -/
theorem interpolate_last_zero (ul : ℝ) (u : LarsState) (j : ℕ)
    (hne : u.beta_path ≠ [])
    (hprev : (u.beta_path.getD (u.beta_path.length - 2) (fun _ => 0)) j = 0)
    (hlast : (u.beta_path.getD (u.beta_path.length - 1) (fun _ => 0)) j = 0) :
    ∀ b ∈ (InterpolateBeta ul u).beta_path.getLast?, b j = 0 := by
  intro b hb
  simp only [InterpolateBeta] at hb
  rw [getLast?_set_last _ _ hne] at hb
  have hbv := Option.some.inj hb
  rw [← hbv]
  dsimp only
  rw [hprev, hlast]
  ring

/-- The estimator written by `updatePhase` and the appended snapshot. -/
theorem updatePhase_beta (s1 : LarsState) (bd yd : ℕ → ℝ) (nz : ℝ)
    (gcb : ℝ × ℕ × Bool) :
    (updatePhase s1 bd yd nz gcb).beta = (List.range s1.n_active).foldl
      (fun b i => Function.update b (aGet s1 i)
        (b (aGet s1 i) + gcb.1 * bd i)) s1.beta ∧
    (updatePhase s1 bd yd nz gcb).beta_path =
      s1.beta_path ++ [(updatePhase s1 bd yd nz gcb).beta] := by
  constructor <;> simp [updatePhase]

/-- The LASSO bound either passes the scan result through (no kick) or
returns the positive minimum ratio with its position and the kick flag. -/
theorem lassoAdjust_cases (t : LarsState) (bd : ℕ → ℝ) (g : ℝ × ℕ) :
    (lassoAdjust t bd g = (g.1, g.2, false)) ∨
    (t.lasso = true ∧
     lassoAdjust t bd g =
       ((minFoldAux (fun i => -t.beta (aGet t i) / bd i) t.n_active).1,
        (minFoldAux (fun i => -t.beta (aGet t i) / bd i) t.n_active).2,
        true) ∧
     (minFoldAux (fun i => -t.beta (aGet t i) / bd i) t.n_active).1 <
       g.1) := by
  unfold lassoAdjust
  split_ifs with h1
  · dsimp only
    split_ifs with h2
    · exact Or.inr ⟨h1, rfl, h2⟩
    · exact Or.inl rfl
  · exact Or.inl rfl

/-- The state after the update phase of an iteration (the body before the
stopping check). -/
noncomputable def bodyU (s : LarsState) : LarsState :=
  updatePhase (stage1 s) (stageDir s).1 (stageYd s) (stageDir s).2
    (stageLasso s)

/-- Either an iteration does not break and returns the update-phase state,
or it breaks and returns its interpolation. -/
theorem larsBody_split (s : LarsState) :
    ((larsBody s).2 = false ∧ (larsBody s).1 = bodyU s) ∨
    ((larsBody s).2 = true ∧
     (larsBody s).1 = InterpolateBeta (bodyU s).max_corr (bodyU s)) := by
  unfold bodyU
  simp only [larsBody, stopPhase]
  split_ifs with h
  · exact Or.inr ⟨rfl, rfl⟩
  · exact Or.inl ⟨rfl, rfl⟩

/-- The update phase preserves the sparsity invariant and relates the last
two snapshots to the previous and current estimators. -/
theorem updateU_sparse (s : LarsState) (h : Inv5 s)
    (hlen : s.active_set.length < u32neg1) :
    Inv5 (bodyU s) ∧ (bodyU s).p = s.p ∧
    (bodyU s).active_set.length ≤ s.active_set.length + 1 ∧
    (bodyU s).beta_path.getD ((bodyU s).beta_path.length - 2) (fun _ => 0) =
      s.beta ∧
    (bodyU s).beta_path.getD ((bodyU s).beta_path.length - 1) (fun _ => 0) =
      (bodyU s).beta ∧
    (bodyU s).beta_path ≠ [] ∧
    (∀ j, j < s.p → (bodyU s).is_active j = false → s.beta j = 0) := by
  obtain ⟨hpi, hbzi, hsci, hsui, hfii, hkpi, hlsi⟩ := h
  obtain ⟨p1, bz1, sc1, su1, slen1⟩ := stage1_sparse s
    ⟨hpi, hbzi, hsci, hsui, hfii, hkpi, hlsi⟩
  have p1' : (stage1 s).p ≤ u32neg1 := p1
  have hfr := stage1_frame s
  have hpeq : (stage1 s).p = s.p := hfr.2.2.2.1
  have hbeq : (stage1 s).beta = s.beta := hfr.2.2.2.2.2.2.2.2.2.2.2.2.2.1
  have hbpeq : (stage1 s).beta_path = s.beta_path :=
    hfr.2.2.2.2.2.2.2.2.2.2.2.1
  have hne : s.beta_path ≠ [] := by
    intro hc
    rw [lastSnap, hc] at hlsi
    exact Option.noConfusion hlsi
  have hL : 0 < s.beta_path.length := List.length_pos.mpr hne
  unfold bodyU
  obtain ⟨q1, q2, q3, q4, q5, q6, _, _⟩ := updatePhase_proj2 (stage1 s)
    (stageDir s).1 (stageYd s) (stageDir s).2 (stageLasso s)
  obtain ⟨ub, ubp⟩ := updatePhase_beta (stage1 s) (stageDir s).1 (stageYd s)
    (stageDir s).2 (stageLasso s)
  have hag : ∀ x, aGet (updatePhase (stage1 s) (stageDir s).1 (stageYd s)
      (stageDir s).2 (stageLasso s)) x = aGet (stage1 s) x := by
    intro x
    rw [aGet, q2]
    rfl
  have hsl : stageLasso s =
      lassoAdjust (stage1 s) (stageDir s).1 (stageGam s) := rfl
  have hsg : stageGam s =
      gammaScan (stage1 s) (stageYd s) (stageDir s).2 := rfl
  have hbz : betaZero (updatePhase (stage1 s) (stageDir s).1 (stageYd s)
      (stageDir s).2 (stageLasso s)) := by
    intro j hj hja
    rw [q6] at hj
    rw [q3] at hja
    have hnotin := sc1 j hj hja
    rw [ub, foldUpdate_val]
    have hempty : (Finset.range (stage1 s).n_active).filter
        (fun i => aGet (stage1 s) i = j) = ∅ := by
      rw [Finset.filter_eq_empty_iff]
      intro i _ hcon
      by_cases hil : i < (stage1 s).active_set.length
      · have hm : aGet (stage1 s) i ∈ (stage1 s).active_set := by
          rw [aGet, List.getD_eq_getElem _ _ hil]
          exact List.getElem_mem _
        rw [hcon] at hm
        exact hnotin hm
      · rw [aGet, List.getD_eq_default _ _ (by omega)] at hcon
        have : j < u32neg1 := by
          have := p1'
          omega
        omega
    rw [hempty, Finset.sum_empty, add_zero]
    exact bz1 j hj hja
  refine ⟨⟨?_, hbz, ?_, ?_, ?_, ?_, ?_⟩, ?_, ?_, ?_, ?_, ?_, ?_⟩
  · show (updatePhase (stage1 s) (stageDir s).1 (stageYd s) (stageDir s).2
      (stageLasso s)).p ≤ u32neg1
    rw [q6]
    exact p1
  · intro j hj hja
    rw [q6] at hj
    rw [q3] at hja
    rw [q2]
    exact sc1 j hj hja
  · intro i1 i2 h1 h2 heq hlt
    rw [q2] at h1 h2
    rw [hag, hag] at heq
    rw [hag, q6] at hlt
    exact su1 i1 i2 h1 h2 heq hlt
  · intro hk hci
    rw [q4] at hk
    rcases lassoAdjust_cases (stage1 s) (stageDir s).1 (stageGam s) with
      hnof | ⟨_, hfire, _⟩
    · have hci2 : (stageLasso s).2.1 = (stageGam s).2 := by
        rw [hsl, hnof]
      rcases gammaScan_ind (stage1 s) (stageYd s) (stageDir s).2 with
        hu | ⟨hlt2, hina⟩
      · exfalso
        rw [q5, hci2, hsg, hu, q6] at hci
        have := p1'
        omega
      · rw [q3, q5, hci2, hsg]
        exact hina
    · rw [hsl, hfire] at hk
      simp at hk
  · intro hk hvp
    rw [q4] at hk
    rcases lassoAdjust_cases (stage1 s) (stageDir s).1 (stageGam s) with
      hnof | ⟨_, hfire, _⟩
    · rw [hsl, hnof] at hk
      simp at hk
    · have hci2 : (stageLasso s).2.1 =
          (minFoldAux (fun i => -(stage1 s).beta (aGet (stage1 s) i) /
            (stageDir s).1 i) (stage1 s).n_active).2 := by
        rw [hsl, hfire]
      have hgam : (stageLasso s).1 =
          (minFoldAux (fun i => -(stage1 s).beta (aGet (stage1 s) i) /
            (stageDir s).1 i) (stage1 s).n_active).1 := by
        rw [hsl, hfire]
      rw [hag, q5, hci2, q6] at hvp
      obtain ⟨hdisj, _, _⟩ := minFoldAux_spec
        (fun i => -(stage1 s).beta (aGet (stage1 s) i) / (stageDir s).1 i)
        (stage1 s).n_active
      rcases hdisj with hinit | ⟨hF2n, hFval, hFpos⟩
      · rw [hinit] at hvp
        have hslen : (stage1 s).active_set.length ≤ u32neg1 := by omega
        rw [aGet, List.getD_eq_default _ _ (by simpa using hslen)] at hvp
        have := p1'
        omega
      · rw [hag, q5, hci2]
        have hvne : aGet (stage1 s)
            (minFoldAux (fun i => -(stage1 s).beta (aGet (stage1 s) i) /
              (stageDir s).1 i) (stage1 s).n_active).2 ≠ u32neg1 := by
          have := p1'
          omega
        have hflt : (minFoldAux (fun i => -(stage1 s).beta
            (aGet (stage1 s) i) / (stageDir s).1 i)
            (stage1 s).n_active).2 < (stage1 s).active_set.length := by
          by_contra hc
          rw [aGet, List.getD_eq_default _ _ (by omega)] at hvne
          exact hvne rfl
        have hbd : (stageDir s).1 (minFoldAux (fun i => -(stage1 s).beta
            (aGet (stage1 s) i) / (stageDir s).1 i)
            (stage1 s).n_active).2 ≠ 0 := by
          intro h0
          rw [hFval] at hFpos
          rw [h0, div_zero] at hFpos
          exact lt_irrefl _ hFpos
        have hfilt : (Finset.range (stage1 s).n_active).filter
            (fun i => aGet (stage1 s) i = aGet (stage1 s)
              (minFoldAux (fun i => -(stage1 s).beta (aGet (stage1 s) i) /
                (stageDir s).1 i) (stage1 s).n_active).2) =
            {(minFoldAux (fun i => -(stage1 s).beta (aGet (stage1 s) i) /
              (stageDir s).1 i) (stage1 s).n_active).2} := by
          apply Finset.eq_singleton_iff_unique_mem.mpr
          constructor
          · rw [Finset.mem_filter, Finset.mem_range]
            exact ⟨hF2n, rfl⟩
          · intro i hi
            rw [Finset.mem_filter, Finset.mem_range] at hi
            have hil : i < (stage1 s).active_set.length := by
              by_contra hc
              rw [aGet, List.getD_eq_default _ _ (by omega)] at hi
              exact hvne hi.2.symm
            exact su1 i _ hil hflt hi.2 (by rw [hi.2]; exact hvp)
        rw [ub, foldUpdate_val, hfilt, Finset.sum_singleton]
        rw [hgam, hFval]
        rw [div_mul_cancel₀ _ hbd]
        ring
  · show (updatePhase (stage1 s) (stageDir s).1 (stageYd s) (stageDir s).2
      (stageLasso s)).beta_path.getLast? = some _
    rw [ubp]
    simp
  · rw [q6, hpeq]
  · rw [q2]
    exact slen1
  · rw [ubp, List.length_append, List.length_singleton]
    have hstep : (stage1 s).beta_path.length + 1 - 2 =
        (stage1 s).beta_path.length - 1 := by omega
    rw [hstep, getD_append_lt _ _ _ _ (by rw [hbpeq]; omega)]
    rw [hbpeq]
    exact getD_of_getLast? _ _ _ hlsi
  · rw [ubp, List.length_append, List.length_singleton]
    have hstep : (stage1 s).beta_path.length + 1 - 1 =
        (stage1 s).beta_path.length := by omega
    rw [hstep, getD_append_last]
  · rw [ubp]
    simp
  · intro j hj hja
    rw [q3] at hja
    have := bz1 j (by rw [hpeq]; exact hj) hja
    rw [hbeq] at this
    exact this

/-- One iteration preserves the sparsity invariant when it does not break,
and in all cases its result has zero coefficients and a zero last snapshot
at every inactive coordinate. -/
theorem larsBody_sparse (s : LarsState) (h : Inv5 s)
    (hlen : s.active_set.length < u32neg1) :
    ((larsBody s).2 = false → Inv5 (larsBody s).1) ∧
    (∀ j, j < (larsBody s).1.p → (larsBody s).1.is_active j = false →
      (larsBody s).1.beta j = 0 ∧
      ∀ b ∈ (larsBody s).1.beta_path.getLast?, b j = 0) ∧
    (larsBody s).1.active_set.length ≤ s.active_set.length + 1 ∧
    (larsBody s).1.p = s.p := by
  obtain ⟨hinv, hup, hulen, hprev, hlast, hne2, hsbz⟩ := updateU_sparse s h hlen
  rcases larsBody_split s with ⟨hb2, hb1⟩ | ⟨hb2, hb1⟩
  · refine ⟨fun _ => hb1 ▸ hinv, ?_, ?_, ?_⟩
    · intro j hj hja
      rw [hb1] at hj hja ⊢
      obtain ⟨_, ubz, _, _, _, _, uls⟩ := hinv
      have hb0 : (bodyU s).beta j = 0 := ubz j hj hja
      refine ⟨hb0, ?_⟩
      intro b hbm
      rw [lastSnap] at uls
      rw [uls] at hbm
      simp at hbm
      rw [← hbm]
      exact hb0
    · rw [hb1]
      exact hulen
    · rw [hb1]
      exact hup
  · have hifr := interpolate_frame (bodyU s).max_corr (bodyU s)
    refine ⟨?_, ?_, ?_, ?_⟩
    · intro hc
      rw [hc] at hb2
      exact Bool.noConfusion hb2
    · intro j hj hja
      rw [hb1] at hj hja ⊢
      rw [hifr.2.2.2.2.2.1] at hj
      rw [hifr.2.2.1] at hja
      obtain ⟨_, ubz, _, _, _, _, _⟩ := hinv
      have hb0 : (bodyU s).beta j = 0 := ubz j hj hja
      refine ⟨by rw [hifr.2.2.2.2.2.2.2.2.1]; exact hb0, ?_⟩
      apply interpolate_last_zero _ _ _ hne2
      · rw [congrFun hprev j]
        exact hsbz j (by rw [← hup]; exact hj) hja
      · rw [congrFun hlast j]
        exact hb0
    · rw [hb1, hifr.2.1]
      exact hulen
    · rw [hb1, hifr.2.2.2.2.2.1]
      exact hup

/-- The sparsity facts hold at every state the loop can reach, for any fuel
that keeps the active list within the `u32` index space. -/
theorem larsLoop_sparse (fuel : ℕ) (s : LarsState) (h : Inv5 s)
    (hfb : s.active_set.length + fuel ≤ u32neg1) :
    ∀ j, j < (larsLoop fuel s).p → (larsLoop fuel s).is_active j = false →
      (larsLoop fuel s).beta j = 0 ∧
      ∀ b ∈ (larsLoop fuel s).beta_path.getLast?, b j = 0 := by
  induction fuel generalizing s with
  | zero =>
    intro j hj hja
    obtain ⟨_, hbz, _, _, _, _, hls⟩ := h
    rw [show larsLoop 0 s = s from rfl] at hj hja ⊢
    refine ⟨hbz j hj hja, ?_⟩
    intro b hbm
    rw [lastSnap] at hls
    rw [hls] at hbm
    simp at hbm
    rw [← hbm]
    exact hbz j hj hja
  | succ fuel ih =>
    by_cases hg : larsGuard s
    · have hlen : s.active_set.length < u32neg1 := by omega
      obtain ⟨hInv, hcore, hlen2, _⟩ := larsBody_sparse s h hlen
      by_cases hbrk : (larsBody s).2 = true
      · rw [show larsLoop (fuel + 1) s = (larsBody s).1 by
          simp [larsLoop, hg, hbrk]]
        exact hcore
      · have hbrk' : (larsBody s).2 = false := by
          revert hbrk
          cases (larsBody s).2 <;> simp
        rw [show larsLoop (fuel + 1) s = larsLoop fuel (larsBody s).1 by
          simp [larsLoop, hg, hbrk']]
        exact ih (larsBody s).1 (hInv hbrk') (by omega)
    · rw [larsLoop_not_guard _ _ hg]
      intro j hj hja
      obtain ⟨_, hbz, _, _, _, _, hls⟩ := h
      refine ⟨hbz j hj hja, ?_⟩
      intro b hbm
      rw [lastSnap] at hls
      rw [hls] at hbm
      simp at hbm
      rw [← hbm]
      exact hbz j hj hja

/-- `DoLARS`'s entry sequence establishes the sparsity invariant on a
freshly initialized object. -/
theorem doLarsInit_Inv5 (o : LarsState) (hp : o.p ≤ u32neg1)
    (ha : o.active_set = []) (hf : ∀ j, o.is_active j = false)
    (hb : o.beta_path = []) : Inv5 (doLarsInit o) := by
  obtain ⟨_, i2, _, _, i5, _, _, i8, i9, _, i11, _, _, i14⟩ :=
    doLarsInit_proj o
  refine ⟨?_, ?_, ?_, ?_, ?_, ?_, ?_⟩
  · show (doLarsInit o).p ≤ u32neg1
    rw [i5]
    exact hp
  · intro j _ _
    rw [i14]
  · intro j _ _
    rw [i8, ha]
    exact List.not_mem_nil j
  · intro i1 i2' hi1 _ _ _
    rw [i8, ha] at hi1
    simp at hi1
  · intro _ hlt
    rw [i9]
    exact hf _
  · intro hk
    rw [i11] at hk
    exact Bool.noConfusion hk
  · rw [lastSnap, i2, hb, i14]
    simp

/-- C5: from a freshly initialized object, at every iteration count (any
fuel up to the `u32` index bound, i.e. any run the C++ counters could
express) every variable that is inactive at that moment has coefficient
exactly zero and the most recent coefficient-path snapshot (the entry
appended by that iteration, including the interpolated final entry) is zero
there; the initial snapshot is the all-zero vector.  Since every path entry
is the most recent one right after the iteration that appended it, and a
kicked-out variable is inactive from its removal until re-activation, the
removed variable's coefficient is zero in every subsequent entry. -/
theorem C5_inactive_coefficients_zero (o : LarsState) (fuel : ℕ)
    (hp : o.p ≤ u32neg1) (ha : o.active_set = [])
    (hf : ∀ j, o.is_active j = false) (hb : o.beta_path = [])
    (hfuel : fuel ≤ u32neg1) :
    (∀ j, j < (DoLARS fuel o).p → (DoLARS fuel o).is_active j = false →
      (DoLARS fuel o).beta j = 0 ∧
      ∀ b ∈ (DoLARS fuel o).beta_path.getLast?, b j = 0) ∧
    (doLarsInit o).beta_path = [fun _ => 0] := by
  obtain ⟨_, i2, _, _, _, _, _, i8, _, _, _, _, _, _⟩ := doLarsInit_proj o
  constructor
  · apply larsLoop_sparse fuel (doLarsInit o)
      (doLarsInit_Inv5 o hp ha hf hb)
    rw [i8, ha]
    simpa using hfuel
  · rw [i2, hb]
    rfl

/-- Witness for C5 at the freshly initialized 1 × 1 instance. -/
theorem C5_inactive_coefficients_zero_witness :
    (larsC9.p ≤ u32neg1 ∧ larsC9.active_set = [] ∧
     (∀ j, larsC9.is_active j = false) ∧ larsC9.beta_path = [] ∧
     (2 : ℕ) ≤ u32neg1) ∧
    (doLarsInit larsC9).beta_path = [fun _ => 0] := by
  refine ⟨⟨by norm_num [larsC9, Init3, u32neg1], rfl, fun j => rfl, rfl,
    by norm_num [u32neg1]⟩, ?_⟩
  exact (C5_inactive_coefficients_zero larsC9 2
    (by norm_num [larsC9, Init3, u32neg1]) rfl (fun j => rfl) rfl
    (by norm_num [u32neg1])).2

/-! ### The LASSO deferred kick-out (C3) -/

/-- The ratio `-beta(active_i) / beta_direction(i)` tested by the LASSO
bound (lars.h lines 346-349). -/
noncomputable def lassoRatio (u : LarsState) (bd : ℕ → ℝ) (i : ℕ) : ℝ :=
  -u.beta (aGet u i) / bd i

/-- When no ratio is strictly positive the running minimum keeps its start
value `(DBL_MAX, (u32)(-1))`. -/
theorem minFoldAux_allNonpos (val : ℕ → ℝ) (n : ℕ)
    (h : ∀ i, i < n → val i ≤ 0) : minFoldAux val n = (DBL_MAX, u32neg1) := by
  induction n with
  | zero => rfl
  | succ n ih =>
    have hstep : minFoldAux val (n + 1) =
        (if 0 < val n ∧ val n < (minFoldAux val n).1
         then (val n, n) else minFoldAux val n) := by
      unfold minFoldAux
      rw [List.range_succ, List.foldl_append, List.foldl_cons, List.foldl_nil]
    have hneg : ¬ (0 < val n ∧ val n < (minFoldAux val n).1) := fun hc =>
      absurd hc.1 (not_lt.mpr (h n (Nat.lt_succ_self n)))
    rw [hstep, if_neg hneg, ih (fun i hi => h i (by omega))]

/-- C3: the LASSO bound takes the smallest strictly positive ratio
`-beta(active_i)/beta_direction(i)` over active positions (non-positive
ratios are excluded from the minimum and never selected); when it undercuts
the current gamma it becomes gamma, records the active position, and sets
the kick-out flag; the iteration in which the bound fires does not remove
the variable (its active set still only grows by the activation at the top,
the flag and position being carried over), and a pending flag is consumed
at the top of the next iteration, which deactivates the flagged position
and, in the Cholesky branch, deletes its column from `R`. -/
theorem C3_lasso_deferred_kick_out (u s t : LarsState) (bd : ℕ → ℝ)
    (g : ℝ × ℕ) (hu : u.lasso = true) (hsk : s.kick_out = false)
    (hfire : (stageLasso s).2.2 = true) (ht : t.kick_out = true) :
    ((minFoldAux (lassoRatio u bd) u.n_active).1 < g.1 →
      lassoAdjust u bd g =
        ((minFoldAux (lassoRatio u bd) u.n_active).1,
         (minFoldAux (lassoRatio u bd) u.n_active).2, true)) ∧
    (¬ (minFoldAux (lassoRatio u bd) u.n_active).1 < g.1 →
      lassoAdjust u bd g = (g.1, g.2, false)) ∧
    (∀ i, i < u.n_active → 0 < lassoRatio u bd i →
      (minFoldAux (lassoRatio u bd) u.n_active).1 ≤ lassoRatio u bd i) ∧
    (minFoldAux (lassoRatio u bd) u.n_active ≠ (DBL_MAX, u32neg1) →
      (minFoldAux (lassoRatio u bd) u.n_active).2 < u.n_active ∧
      0 < (minFoldAux (lassoRatio u bd) u.n_active).1 ∧
      (minFoldAux (lassoRatio u bd) u.n_active).1 =
        lassoRatio u bd (minFoldAux (lassoRatio u bd) u.n_active).2) ∧
    ((∀ i, i < u.n_active → lassoRatio u bd i ≤ 0) → g.1 ≤ DBL_MAX →
      lassoAdjust u bd g = (g.1, g.2, false)) ∧
    (larsBody s).1.active_set = s.active_set ++ [s.change_ind] ∧
    (larsBody s).1.kick_out = true ∧
    (larsBody s).1.change_ind = (stageLasso s).2.1 ∧
    (stage1 t).active_set = t.active_set.eraseIdx t.change_ind ∧
    (stage1 t).is_active (t.active_set.getD t.change_ind u32neg1) = false ∧
    (t.use_cholesky = true →
      (stage1 t).R = CholeskyDelete t.R t.Rdim t.change_ind ∧
      (stage1 t).Rdim = t.Rdim - 1) ∧
    (larsBody t).1.active_set = t.active_set.eraseIdx t.change_ind := by
  have hmr := minFoldAux_spec (lassoRatio u bd) u.n_active
  have hlad : lassoAdjust u bd g =
      (if (minFoldAux (lassoRatio u bd) u.n_active).1 < g.1
       then ((minFoldAux (lassoRatio u bd) u.n_active).1,
             (minFoldAux (lassoRatio u bd) u.n_active).2, true)
       else (g.1, g.2, false)) := by
    unfold lassoAdjust lassoRatio
    rw [hu]
    rw [if_pos rfl]
  have hbUs : bodyU s = updatePhase (stage1 s) (stageDir s).1 (stageYd s)
      (stageDir s).2 (stageLasso s) := rfl
  have hbUt : bodyU t = updatePhase (stage1 t) (stageDir t).1 (stageYd t)
      (stageDir t).2 (stageLasso t) := rfl
  obtain ⟨_, qs2, _, qs4, qs5, _, _, _⟩ :=
    updatePhase_proj2 (stage1 s) (stageDir s).1 (stageYd s) (stageDir s).2
      (stageLasso s)
  obtain ⟨_, qt2, _, _, _, _, _, _⟩ :=
    updatePhase_proj2 (stage1 t) (stageDir t).1 (stageYd t) (stageDir t).2
      (stageLasso t)
  have hs1 := stage1_activate s hsk
  have hsd := stage1_deactivate t ht
  refine ⟨fun hlt => by rw [hlad, if_pos hlt],
    fun hnlt => by rw [hlad, if_neg hnlt], hmr.2.1, ?_, ?_, ?_, ?_, ?_,
    hsd.2.1, ?_, hsd.2.2.2.2.1, ?_⟩
  · intro hne
    rcases hmr.1 with h | h
    · exact absurd h hne
    · exact ⟨h.1, h.2.2, h.2.1⟩
  · intro hall hgle
    have hz := minFoldAux_allNonpos (lassoRatio u bd) u.n_active hall
    rw [hlad, hz, if_neg (not_lt.mpr hgle)]
  · rcases larsBody_split s with ⟨_, hb1⟩ | ⟨_, hb1⟩
    · rw [hb1, hbUs, qs2, hs1.2.1]
    · rw [hb1, (interpolate_frame _ _).2.1, hbUs, qs2, hs1.2.1]
  · rcases larsBody_split s with ⟨_, hb1⟩ | ⟨_, hb1⟩
    · rw [hb1, hbUs, qs4, hfire]
    · rw [hb1, (interpolate_frame _ _).2.2.2.1, hbUs, qs4, hfire]
  · rcases larsBody_split s with ⟨_, hb1⟩ | ⟨_, hb1⟩
    · rw [hb1, hbUs, qs5]
    · rw [hb1, (interpolate_frame _ _).2.2.2.2.1, hbUs, qs5]
  · rw [hsd.2.2.2.1]
    simp
  · rcases larsBody_split t with ⟨_, hb1⟩ | ⟨_, hb1⟩
    · rw [hb1, hbUt, qt2, hsd.2.1]
    · rw [hb1, (interpolate_frame _ _).2.1, hbUt, qt2, hsd.2.1]

/-- Evaluation of the `1 × 1` case of the generic solver. -/
theorem solveMat_dim1 (A : ℕ → ℕ → ℝ) (b : ℕ → ℝ) :
    solveMat A 1 b 0 = (A 0 0)⁻¹ * b 0 := by
  unfold solveMat
  rw [dif_pos (by norm_num : (0 : ℕ) < 1)]
  rw [Matrix.inv_def, Matrix.det_fin_one, Matrix.adjugate_fin_one,
    Ring.inverse_eq_inv]
  simp [Matrix.mulVec, Matrix.dotProduct, Fin.sum_univ_one, toMat,
    Matrix.smul_apply, Matrix.one_apply]

/-- A LASSO run one step before a sign-consistency violation: one variable,
coefficient `-1`, correlation `+1`, so the ratio is `1` while the scan's
gamma is `2`. -/
def sW : LarsState :=
  { larsNew with
    X := fun r j => if r = 0 ∧ j = 0 then 1 else 0
    n := 1
    p := 1
    Gram := fun i j => if i = 0 ∧ j = 0 then 1 else 0
    lasso := true
    beta := fun j => if j = 0 then -1 else 0
    corr := fun j => if j = 0 then 1 else 0
    max_corr := 2 }

/-- The same object with a pending kick-out flag. -/
def tW : LarsState := { sW with kick_out := true }

/-- Witness for C3: at `sW` the LASSO bound fires, and at `tW` the pending
flag is consumed by removing the flagged position. -/
theorem C3_lasso_deferred_kick_out_witness :
    (sW.lasso = true ∧ sW.kick_out = false ∧ (stageLasso sW).2.2 = true ∧
     tW.kick_out = true) ∧
    (stage1 tW).active_set = tW.active_set.eraseIdx tW.change_ind := by
  have hu : sW.lasso = true := rfl
  have hsk : sW.kick_out = false := rfl
  have ht : tW.kick_out = true := rfl
  obtain ⟨fX, fy, fn, fp, fG, fXty, fuc, flas, fdl, fen, fl2, fbp, flp, fb,
    fyh, fc, fmc, fk⟩ := stage1_frame sW
  have hs1 := stage1_activate sW hsk
  have ha1 : (stage1 sW).active_set = [0] := by
    rw [hs1.2.1]
    rfl
  have hn1 : (stage1 sW).n_active = 1 := by
    rw [hs1.1]
    rfl
  have hp1 : (stage1 sW).p = 1 := by
    rw [fp]
    rfl
  have haGet0 : aGet (stage1 sW) 0 = 0 := by
    unfold aGet
    rw [ha1]
    rfl
  have hsg0 : signsOf (stage1 sW) 0 = 1 := by
    unfold signsOf
    rw [haGet0, fc]
    norm_num [show sW.corr 0 = (1 : ℝ) from rfl]
  have hchol : (stage1 sW).use_cholesky = false := by
    rw [fuc]
    rfl
  have hsd : stageDir sW = dirGram (stage1 sW) := by
    unfold stageDir
    rw [if_neg (by simp [hchol])]
  have hbd0 : (stageDir sW).1 0 = 1 := by
    rw [hsd]
    unfold dirGram
    dsimp only
    rw [hn1, solveMat_dim1]
    simp only [haGet0, hsg0, fG, Finset.sum_range_one, solveMat_dim1]
    norm_num [show sW.Gram 0 0 = (1 : ℝ) from rfl, Real.sqrt_one]
  have hnz : (stageDir sW).2 = 1 := by
    rw [hsd]
    unfold dirGram
    dsimp only
    rw [hn1, Finset.sum_range_one, solveMat_dim1]
    simp only [haGet0, hsg0, fG]
    norm_num [show sW.Gram 0 0 = (1 : ℝ) from rfl, Real.sqrt_one]
  have hgam : stageGam sW = (2, u32neg1) := by
    unfold stageGam gammaScan
    dsimp only
    rw [hn1, hp1, if_neg (lt_irrefl 1), fmc, hnz]
    rw [show sW.max_corr = (2 : ℝ) from rfl]
    norm_num
  have hbeta : (stage1 sW).beta (aGet (stage1 sW) 0) = -1 := by
    rw [haGet0, fb]
    norm_num [show sW.beta 0 = (-1 : ℝ) from rfl]
  have hval0 : -(stage1 sW).beta (aGet (stage1 sW) 0) / (stageDir sW).1 0
      = 1 := by
    rw [hbeta, hbd0]
    norm_num
  have hmr1 : minFoldAux
      (fun i => -(stage1 sW).beta (aGet (stage1 sW) i) / (stageDir sW).1 i)
      1 = (1, 0) := by
    unfold minFoldAux
    rw [show List.range 1 = [0] from rfl, List.foldl_cons, List.foldl_nil]
    dsimp only
    rw [hval0]
    rw [if_pos ⟨by norm_num, by norm_num [DBL_MAX]⟩]
  have hl1 : (stage1 sW).lasso = true := by
    rw [flas]
    exact hu
  have hfire : (stageLasso sW).2.2 = true := by
    unfold stageLasso lassoAdjust
    rw [hl1, if_pos rfl]
    dsimp only
    rw [hn1, hmr1, hgam]
    norm_num
  exact ⟨⟨hu, hsk, hfire, ht⟩,
    (C3_lasso_deferred_kick_out sW sW tW (fun _ => 1) (2, u32neg1) hu hsk
      hfire ht).2.2.2.2.2.2.2.2.1⟩

/-! ### The Cholesky consistency invariant (C1) -/

/-- Upper-triangularity of the `k × k` leading block. -/
def upperTri (R : ℕ → ℕ → ℝ) (k : ℕ) : Prop :=
  ∀ i j, j < i → i < k → R i j = 0

/-- The Gram matrix of a sequence of columns (each of length `m`), with the
ridge term `l2` on the diagonal when the Elastic Net is enabled. -/
def gramOf (m : ℕ) (en : Bool) (l2 : ℝ) (cols : ℕ → ℕ → ℝ) (i j : ℕ) : ℝ :=
  dotn m (cols i) (cols j) + if en = true ∧ i = j then l2 else 0

/-- `Rᵀ·R` over the `k × k` block equals the (ridge-adjusted) Gram matrix of
the column sequence. -/
def cholConsistent (R : ℕ → ℕ → ℝ) (k m : ℕ) (en : Bool) (l2 : ℝ)
    (cols : ℕ → ℕ → ℝ) : Prop :=
  ∀ i j, i < k → j < k →
    ∑ t in Finset.range k, R t i * R t j = gramOf m en l2 cols i j

theorem forwardSubAux_length (L : ℕ → ℕ → ℝ) (b : ℕ → ℝ) (n : ℕ) :
    (forwardSubAux L b n).length = n := by
  induction n with
  | zero => rfl
  | succ n ih => simp [forwardSubAux, ih]

/-- Prefix stability of the forward-substitution recursion. -/
theorem forwardSubAux_getD (L : ℕ → ℕ → ℝ) (b : ℕ → ℝ) (n i : ℕ)
    (h : i < n) : (forwardSubAux L b n).getD i 0 = forwardSub L b i := by
  induction n with
  | zero => omega
  | succ n ih =>
    rcases Nat.lt_succ_iff_lt_or_eq.mp h with h' | h'
    · rw [show forwardSubAux L b (n + 1) = forwardSubAux L b n ++
        [(b n - ∑ j in Finset.range n,
          L n j * (forwardSubAux L b n).getD j 0) / L n n] from rfl]
      rw [getD_append_lt _ _ _ _ (by rw [forwardSubAux_length]; exact h')]
      exact ih h'
    · subst h'
      rfl

/-- The recurrence satisfied by the forward-substitution solution. -/
theorem forwardSub_step (L : ℕ → ℕ → ℝ) (b : ℕ → ℝ) (i : ℕ) :
    forwardSub L b i =
      (b i - ∑ j in Finset.range i, L i j * forwardSub L b j) / L i i := by
  have key : ∀ (l : List ℝ) (a : ℝ), l.length = i → (l ++ [a]).getD i 0 = a := by
    intro l a hl
    subst hl
    exact getD_append_last l a 0
  have hstep : forwardSub L b i = (b i - ∑ j in Finset.range i,
      L i j * (forwardSubAux L b i).getD j 0) / L i i := by
    show (forwardSubAux L b (i + 1)).getD i 0 = _
    exact key _ _ (forwardSubAux_length L b i)
  rw [hstep]
  congr 2
  exact Finset.sum_congr rfl fun j hj => by
    rw [forwardSubAux_getD L b i j (Finset.mem_range.mp hj)]

/-- Forward substitution solves the lower-triangular system row by row. -/
theorem forwardSub_solves (L : ℕ → ℕ → ℝ) (b : ℕ → ℝ) (i : ℕ)
    (hL : L i i ≠ 0) :
    ∑ j in Finset.range (i + 1), L i j * forwardSub L b j = b i := by
  rw [Finset.sum_range_succ, forwardSub_step L b i]
  field_simp

/-- The triangular solve used by `CholeskyInsert`: the computed column
satisfies `Rᵀ · R_k = new_Gram_col` on the active block. -/
theorem forwardSub_solves_tri (R : ℕ → ℕ → ℝ) (k : ℕ) (g : ℕ → ℝ)
    (htri : upperTri R k) (hdiag : ∀ i, i < k → R i i ≠ 0) (i : ℕ)
    (hi : i < k) :
    ∑ t in Finset.range k, R t i * forwardSub (fun a b' => R b' a) g t
      = g i := by
  have hsplit := Finset.sum_range_add_sum_Ico
    (fun t => R t i * forwardSub (fun a b' => R b' a) g t)
    (show i + 1 ≤ k from hi)
  rw [← hsplit]
  have hzero : ∑ t in Finset.Ico (i + 1) k,
      R t i * forwardSub (fun a b' => R b' a) g t = 0 := by
    refine Finset.sum_eq_zero fun t ht => ?_
    obtain ⟨ht1, ht2⟩ := Finset.mem_Ico.mp ht
    rw [htri t i (by omega) ht2, zero_mul]
  rw [hzero, add_zero]
  exact forwardSub_solves (fun a b' => R b' a) g i (hdiag i hi)

/-- `CholeskyInsert` on an empty factor starts a consistent `1 × 1`
factor. -/
theorem CholeskyInsert_base (R : ℕ → ℕ → ℝ) (m : ℕ) (en : Bool) (l2 : ℝ)
    (x g : ℕ → ℝ)
    (hrad : 0 ≤ dotn m x x + (if en = true then l2 else 0)) :
    cholConsistent (CholeskyInsert R 0 en l2 m x g) 1 m en l2
      (fun _ => x) ∧
    upperTri (CholeskyInsert R 0 en l2 m x g) 1 := by
  constructor
  · intro i j hi hj
    have hi0 : i = 0 := by omega
    have hj0 : j = 0 := by omega
    subst hi0
    subst hj0
    rw [Finset.sum_range_one]
    show CholeskyInsert R 0 en l2 m x g 0 0 *
      CholeskyInsert R 0 en l2 m x g 0 0 = _
    unfold CholeskyInsert
    rw [if_pos rfl, if_pos ⟨rfl, rfl⟩]
    rw [Real.mul_self_sqrt hrad]
    unfold gramOf
    simp
  · intro i j hj hi
    omega

/-- Symmetry of the inner product. -/
theorem dotn_comm (m : ℕ) (f g : ℕ → ℝ) : dotn m f g = dotn m g f := by
  unfold dotn
  exact Finset.sum_congr rfl fun r _ => mul_comm _ _

/-- `CholeskyInsert` extends a consistent factor by one column and keeps it
consistent and upper triangular. -/
theorem CholeskyInsert_step (R : ℕ → ℕ → ℝ) (k m : ℕ) (en : Bool) (l2 : ℝ)
    (cols : ℕ → ℕ → ℝ) (x g : ℕ → ℝ) (hk : k ≠ 0)
    (hcons : cholConsistent R k m en l2 cols) (htri : upperTri R k)
    (hdiag : ∀ i, i < k → R i i ≠ 0)
    (hg : ∀ i, i < k → g i = dotn m (cols i) x)
    (hrad : 0 ≤ cholRadicand R k en l2 m x g) :
    cholConsistent (CholeskyInsert R k en l2 m x g) (k + 1) m en l2
      (fun i => if i = k then x else cols i) ∧
    upperTri (CholeskyInsert R k en l2 m x g) (k + 1) := by
  have happ : ∀ i j, CholeskyInsert R k en l2 m x g i j =
      (if i < k ∧ j < k then R i j
       else if i < k ∧ j = k then forwardSub (fun a b' => R b' a) g i
       else if i = k ∧ j < k then 0
       else if i = k ∧ j = k then Real.sqrt (cholRadicand R k en l2 m x g)
       else 0) := by
    intro i j
    unfold CholeskyInsert
    rw [if_neg hk]
  constructor
  · intro i j hi hj
    rw [Finset.sum_range_succ]
    rcases Nat.lt_succ_iff_lt_or_eq.mp hi with hi' | hi' <;>
      rcases Nat.lt_succ_iff_lt_or_eq.mp hj with hj' | hj'
    · -- both old columns
      have hsum : ∑ t in Finset.range k, CholeskyInsert R k en l2 m x g t i *
          CholeskyInsert R k en l2 m x g t j =
          ∑ t in Finset.range k, R t i * R t j := by
        refine Finset.sum_congr rfl fun t ht => ?_
        have htk := Finset.mem_range.mp ht
        rw [happ, happ, if_pos ⟨htk, hi'⟩, if_pos ⟨htk, hj'⟩]
      have h1 : CholeskyInsert R k en l2 m x g k i = 0 := by
        rw [happ, if_neg (by omega), if_neg (by omega), if_pos ⟨rfl, hi'⟩]
      rw [hsum, h1, zero_mul, add_zero, hcons i j hi' hj']
      simp [gramOf, show ¬ i = k from by omega, show ¬ j = k from by omega]
    · -- old row, new column
      rw [hj']
      have hsum : ∑ t in Finset.range k, CholeskyInsert R k en l2 m x g t i *
          CholeskyInsert R k en l2 m x g t k =
          ∑ t in Finset.range k, R t i * forwardSub (fun a b' => R b' a) g t := by
        refine Finset.sum_congr rfl fun t ht => ?_
        have htk := Finset.mem_range.mp ht
        rw [happ, happ, if_pos ⟨htk, hi'⟩, if_neg (by omega),
          if_pos ⟨htk, rfl⟩]
      have h1 : CholeskyInsert R k en l2 m x g k i = 0 := by
        rw [happ, if_neg (by omega), if_neg (by omega), if_pos ⟨rfl, hi'⟩]
      rw [hsum, forwardSub_solves_tri R k g htri hdiag i hi', h1, zero_mul,
        add_zero, hg i hi']
      simp [gramOf, show ¬ i = k from by omega]
    · -- new row, old column
      rw [hi']
      have hsum : ∑ t in Finset.range k, CholeskyInsert R k en l2 m x g t k *
          CholeskyInsert R k en l2 m x g t j =
          ∑ t in Finset.range k, R t j * forwardSub (fun a b' => R b' a) g t := by
        refine Finset.sum_congr rfl fun t ht => ?_
        have htk := Finset.mem_range.mp ht
        rw [happ, happ, if_neg (by omega), if_pos ⟨htk, rfl⟩,
          if_pos ⟨htk, hj'⟩]
        ring
      have h1 : CholeskyInsert R k en l2 m x g k j = 0 := by
        rw [happ, if_neg (by omega), if_neg (by omega), if_pos ⟨rfl, hj'⟩]
      rw [hsum, forwardSub_solves_tri R k g htri hdiag j hj', h1, mul_zero,
        add_zero, hg j hj']
      simp [gramOf, show ¬ j = k from by omega, show ¬ k = j from by omega]
      exact dotn_comm m (cols j) x
    · -- diagonal corner
      rw [hi', hj']
      have hsum : ∑ t in Finset.range k, CholeskyInsert R k en l2 m x g t k *
          CholeskyInsert R k en l2 m x g t k =
          ∑ t in Finset.range k, forwardSub (fun a b' => R b' a) g t *
            forwardSub (fun a b' => R b' a) g t := by
        refine Finset.sum_congr rfl fun t ht => ?_
        have htk := Finset.mem_range.mp ht
        rw [happ, if_neg (by omega), if_pos ⟨htk, rfl⟩]
      have h1 : CholeskyInsert R k en l2 m x g k k =
          Real.sqrt (cholRadicand R k en l2 m x g) := by
        rw [happ, if_neg (by omega), if_neg (by omega), if_neg (by omega),
          if_pos ⟨rfl, rfl⟩]
      rw [hsum, h1, Real.mul_self_sqrt hrad]
      simp only [cholRadicand, gramOf, dotn, eq_self_iff_true, and_true,
        if_true, ite_true]
      split_ifs with h <;> ring
  · intro i j hj hi
    rw [happ]
    rcases Nat.lt_succ_iff_lt_or_eq.mp hi with hi' | hi'
    · rw [if_pos ⟨hi', by omega⟩]
      exact htri i j hj hi'
    · rw [if_neg (by omega), if_neg (by omega), if_pos ⟨hi', by omega⟩]

/-- A zero subdiagonal entry makes the rotation the identity. -/
theorem givensStep_zero (ncols : ℕ) (M : ℕ → ℕ → ℝ) (kk : ℕ)
    (hb : M (kk + 1) kk = 0) : givensStep ncols M kk = M := by
  unfold givensStep
  rw [if_pos hb]

/-- Entrywise form of a nontrivial rotation step. -/
theorem givensStep_apply (ncols : ℕ) (M : ℕ → ℕ → ℝ) (kk : ℕ)
    (hb : M (kk + 1) kk ≠ 0) (i j : ℕ) :
    givensStep ncols M kk i j =
      (if i = kk ∧ j = kk then Real.sqrt (M kk kk ^ 2 + M (kk + 1) kk ^ 2)
       else if i = kk + 1 ∧ j = kk then 0
       else if (i = kk ∨ i = kk + 1) ∧ (kk + 1 ≤ j ∧ j + 1 ≤ ncols) then
         (if i = kk
          then (M kk kk / Real.sqrt (M kk kk ^ 2 + M (kk + 1) kk ^ 2)) * M kk j
            + (M (kk + 1) kk / Real.sqrt (M kk kk ^ 2 + M (kk + 1) kk ^ 2))
              * M (kk + 1) j
          else -(M (kk + 1) kk / Real.sqrt (M kk kk ^ 2 + M (kk + 1) kk ^ 2))
              * M kk j
            + (M kk kk / Real.sqrt (M kk kk ^ 2 + M (kk + 1) kk ^ 2))
              * M (kk + 1) j)
       else M i j) := by
  unfold givensStep
  rw [if_neg hb]

/-- Rows other than the two rotated ones are untouched. -/
theorem givensStep_other (ncols : ℕ) (M : ℕ → ℕ → ℝ) (kk i j : ℕ)
    (hi1 : i ≠ kk) (hi2 : i ≠ kk + 1) :
    givensStep ncols M kk i j = M i j := by
  by_cases hb : M (kk + 1) kk = 0
  · rw [givensStep_zero ncols M kk hb]
  · rw [givensStep_apply ncols M kk hb]
    rw [if_neg (by tauto), if_neg (by tauto), if_neg (by tauto)]

/-- Two sums over `range (c+1)` agree when the summands agree off a fixed
pair of indices whose contributions have equal totals. -/
theorem sum_pair_congr (c kk : ℕ) (hkk : kk < c) (f g : ℕ → ℝ)
    (hoff : ∀ t, t < c + 1 → t ≠ kk → t ≠ kk + 1 → f t = g t)
    (hpair : f kk + f (kk + 1) = g kk + g (kk + 1)) :
    ∑ t in Finset.range (c + 1), f t = ∑ t in Finset.range (c + 1), g t := by
  have hkkmem : kk ∈ Finset.range (c + 1) := Finset.mem_range.mpr (by omega)
  have hkk1mem : kk + 1 ∈ (Finset.range (c + 1)).erase kk :=
    Finset.mem_erase.mpr ⟨by omega, Finset.mem_range.mpr (by omega)⟩
  rw [← Finset.sum_erase_add _ f hkkmem, ← Finset.sum_erase_add _ f hkk1mem]
  rw [← Finset.sum_erase_add _ g hkkmem, ← Finset.sum_erase_add _ g hkk1mem]
  have hcong : ∑ t in ((Finset.range (c + 1)).erase kk).erase (kk + 1), f t =
      ∑ t in ((Finset.range (c + 1)).erase kk).erase (kk + 1), g t := by
    refine Finset.sum_congr rfl fun t ht => ?_
    have h1 := Finset.mem_erase.mp ht
    have h2 := Finset.mem_erase.mp h1.2
    exact hoff t (Finset.mem_range.mp h2.2) h2.1 h1.1
  rw [hcong]
  linarith [hpair]

/-- One rotation step preserves all pairwise column products, provided the
two rotated rows vanish on the already-processed columns. -/
theorem givensStep_products (c : ℕ) (M : ℕ → ℕ → ℝ) (kk : ℕ) (hkk : kk < c)
    (hz1 : ∀ j, j < kk → M kk j = 0 ∧ M (kk + 1) j = 0)
    (u v : ℕ) (hu : u < c) (hv : v < c) :
    ∑ t in Finset.range (c + 1),
        givensStep c M kk t u * givensStep c M kk t v =
      ∑ t in Finset.range (c + 1), M t u * M t v := by
  by_cases hb : M (kk + 1) kk = 0
  · rw [givensStep_zero c M kk hb]
  · have hb2 : 0 < M (kk + 1) kk ^ 2 :=
      lt_of_le_of_ne (sq_nonneg _) (Ne.symm (pow_ne_zero 2 hb))
    have hr2 : 0 < M kk kk ^ 2 + M (kk + 1) kk ^ 2 := by
      have := sq_nonneg (M kk kk)
      linarith
    have hr : 0 < Real.sqrt (M kk kk ^ 2 + M (kk + 1) kk ^ 2) :=
      Real.sqrt_pos.mpr hr2
    have hrsq : Real.sqrt (M kk kk ^ 2 + M (kk + 1) kk ^ 2) ^ 2 =
        M kk kk ^ 2 + M (kk + 1) kk ^ 2 := Real.sq_sqrt (le_of_lt hr2)
    have hrow1 : ∀ w, w < c → givensStep c M kk kk w =
        (if w = kk then Real.sqrt (M kk kk ^ 2 + M (kk + 1) kk ^ 2)
         else if kk + 1 ≤ w then
           (M kk kk / Real.sqrt (M kk kk ^ 2 + M (kk + 1) kk ^ 2)) * M kk w
             + (M (kk + 1) kk / Real.sqrt (M kk kk ^ 2 + M (kk + 1) kk ^ 2))
               * M (kk + 1) w
         else M kk w) := by
      intro w hw
      rw [givensStep_apply c M kk hb]
      by_cases hw1 : w = kk
      · rw [if_pos ⟨rfl, hw1⟩, if_pos hw1]
      · rw [if_neg (by tauto), if_neg (by omega), if_neg hw1]
        by_cases hw2 : kk + 1 ≤ w
        · rw [if_pos ⟨Or.inl rfl, hw2, by omega⟩, if_pos rfl, if_pos hw2]
        · rw [if_neg (by tauto), if_neg hw2]
    have hrow2 : ∀ w, w < c → givensStep c M kk (kk + 1) w =
        (if w = kk then 0
         else if kk + 1 ≤ w then
           -(M (kk + 1) kk / Real.sqrt (M kk kk ^ 2 + M (kk + 1) kk ^ 2))
               * M kk w
             + (M kk kk / Real.sqrt (M kk kk ^ 2 + M (kk + 1) kk ^ 2))
               * M (kk + 1) w
         else M (kk + 1) w) := by
      intro w hw
      rw [givensStep_apply c M kk hb]
      by_cases hw1 : w = kk
      · rw [if_neg (by omega), if_pos ⟨rfl, hw1⟩, if_pos hw1]
      · rw [if_neg (by omega), if_neg (by tauto), if_neg hw1]
        by_cases hw2 : kk + 1 ≤ w
        · rw [if_pos ⟨Or.inr rfl, hw2, by omega⟩, if_neg (by omega),
            if_pos hw2]
        · rw [if_neg (by tauto), if_neg hw2]
    refine sum_pair_congr c kk hkk _ _ ?_ ?_
    · intro t _ ht1 ht2
      rw [givensStep_other c M kk t u ht1 ht2,
        givensStep_other c M kk t v ht1 ht2]
    · have hvals : ∀ w, w < c →
          (w < kk → givensStep c M kk kk w = M kk w ∧
            givensStep c M kk (kk + 1) w = M (kk + 1) w) ∧
          (w = kk → givensStep c M kk kk w =
              Real.sqrt (M kk kk ^ 2 + M (kk + 1) kk ^ 2) ∧
            givensStep c M kk (kk + 1) w = 0) ∧
          (kk < w → givensStep c M kk kk w =
              (M kk kk / Real.sqrt (M kk kk ^ 2 + M (kk + 1) kk ^ 2)) * M kk w
                + (M (kk + 1) kk / Real.sqrt (M kk kk ^ 2 + M (kk + 1) kk ^ 2))
                  * M (kk + 1) w ∧
            givensStep c M kk (kk + 1) w =
              -(M (kk + 1) kk / Real.sqrt (M kk kk ^ 2 + M (kk + 1) kk ^ 2))
                  * M kk w
                + (M kk kk / Real.sqrt (M kk kk ^ 2 + M (kk + 1) kk ^ 2))
                  * M (kk + 1) w) := by
        intro w hw
        refine ⟨fun hlt => ⟨?_, ?_⟩, fun heq => ⟨?_, ?_⟩, fun hgt => ⟨?_, ?_⟩⟩
        · rw [hrow1 w hw, if_neg (by omega), if_neg (by omega)]
        · rw [hrow2 w hw, if_neg (by omega), if_neg (by omega)]
        · rw [hrow1 w hw, if_pos heq]
        · rw [hrow2 w hw, if_pos heq]
        · rw [hrow1 w hw, if_neg (by omega), if_pos (by omega)]
        · rw [hrow2 w hw, if_neg (by omega), if_pos (by omega)]
      have hrne : Real.sqrt (M kk kk ^ 2 + M (kk + 1) kk ^ 2) ≠ 0 :=
        ne_of_gt hr
      rcases Nat.lt_trichotomy u kk with hu' | hu' | hu' <;>
        rcases Nat.lt_trichotomy v kk with hv' | hv' | hv'
      · rw [((hvals u hu).1 hu').1, ((hvals u hu).1 hu').2,
          ((hvals v hv).1 hv').1, ((hvals v hv).1 hv').2]
      · rw [((hvals u hu).1 hu').1, ((hvals u hu).1 hu').2,
          ((hvals v hv).2.1 hv').1, ((hvals v hv).2.1 hv').2,
          (hz1 u hu').1, (hz1 u hu').2]
        ring
      · rw [((hvals u hu).1 hu').1, ((hvals u hu).1 hu').2,
          ((hvals v hv).2.2 hv').1, ((hvals v hv).2.2 hv').2,
          (hz1 u hu').1, (hz1 u hu').2]
        ring
      · rw [((hvals u hu).2.1 hu').1, ((hvals u hu).2.1 hu').2,
          ((hvals v hv).1 hv').1, ((hvals v hv).1 hv').2,
          (hz1 v hv').1, (hz1 v hv').2]
        ring
      · rw [((hvals u hu).2.1 hu').1, ((hvals u hu).2.1 hu').2,
          ((hvals v hv).2.1 hv').1, ((hvals v hv).2.1 hv').2, hu', hv']
        linear_combination hrsq
      · rw [((hvals u hu).2.1 hu').1, ((hvals u hu).2.1 hu').2,
          ((hvals v hv).2.2 hv').1, ((hvals v hv).2.2 hv').2, hu']
        field_simp
      · rw [((hvals u hu).2.2 hu').1, ((hvals u hu).2.2 hu').2,
          ((hvals v hv).1 hv').1, ((hvals v hv).1 hv').2,
          (hz1 v hv').1, (hz1 v hv').2]
        ring
      · rw [((hvals u hu).2.2 hu').1, ((hvals u hu).2.2 hu').2,
          ((hvals v hv).2.1 hv').1, ((hvals v hv).2.1 hv').2, hv']
        field_simp
        ring
      · rw [((hvals u hu).2.2 hu').1, ((hvals u hu).2.2 hu').2,
          ((hvals v hv).2.2 hv').1, ((hvals v hv).2.2 hv').2]
        have hkey : ∀ x1 y1 x2 y2 : ℝ,
            ((M kk kk / Real.sqrt (M kk kk ^ 2 + M (kk + 1) kk ^ 2)) * x1
              + (M (kk + 1) kk / Real.sqrt (M kk kk ^ 2 + M (kk + 1) kk ^ 2))
                * y1) *
            ((M kk kk / Real.sqrt (M kk kk ^ 2 + M (kk + 1) kk ^ 2)) * x2
              + (M (kk + 1) kk / Real.sqrt (M kk kk ^ 2 + M (kk + 1) kk ^ 2))
                * y2) +
            (-(M (kk + 1) kk / Real.sqrt (M kk kk ^ 2 + M (kk + 1) kk ^ 2))
                * x1
              + (M kk kk / Real.sqrt (M kk kk ^ 2 + M (kk + 1) kk ^ 2))
                * y1) *
            (-(M (kk + 1) kk / Real.sqrt (M kk kk ^ 2 + M (kk + 1) kk ^ 2))
                * x2
              + (M kk kk / Real.sqrt (M kk kk ^ 2 + M (kk + 1) kk ^ 2))
                * y2) = x1 * x2 + y1 * y2 := by
          intro x1 y1 x2 y2
          have hcs : (M kk kk / Real.sqrt (M kk kk ^ 2 + M (kk + 1) kk ^ 2))
                ^ 2 +
              (M (kk + 1) kk / Real.sqrt (M kk kk ^ 2 + M (kk + 1) kk ^ 2))
                ^ 2 = 1 := by
            rw [div_pow, div_pow, div_add_div_same, hrsq,
              div_self (ne_of_gt hr2)]
          linear_combination (x1 * x2 + y1 * y2) * hcs
        exact hkey (M kk u) (M (kk + 1) u) (M kk v) (M (kk + 1) v)

/-- The rotation loop: starting from a matrix that is triangular on the
processed columns and Hessenberg on the rest, it produces a triangular
matrix and preserves all pairwise column products. -/
theorem givensSteps_inv (c : ℕ) (steps : ℕ) :
    ∀ (M : ℕ → ℕ → ℝ) (kk : ℕ), kk + steps = c →
    (∀ i j, j < kk → i > j → i < c + 1 → M i j = 0) →
    (∀ i j, kk ≤ j → j < c → i > j + 1 → i < c + 1 → M i j = 0) →
    (∀ i j, j < c → i > j → i < c + 1 → givensSteps c steps M kk i j = 0) ∧
    (∀ u v, u < c → v < c →
      ∑ t in Finset.range (c + 1), givensSteps c steps M kk t u *
        givensSteps c steps M kk t v =
      ∑ t in Finset.range (c + 1), M t u * M t v) := by
  induction steps with
  | zero =>
    intro M kk hs hZ1 hZ2
    have hkc : kk = c := by omega
    subst hkc
    constructor
    · intro i j hj hij hic
      exact hZ1 i j hj hij hic
    · intro u v _ _
      rfl
  | succ steps ih =>
    intro M kk hs hZ1 hZ2
    have hkk : kk < c := by omega
    have hz1' : ∀ j, j < kk → M kk j = 0 ∧ M (kk + 1) j = 0 := fun j hj =>
      ⟨hZ1 kk j hj (by omega) (by omega),
       hZ1 (kk + 1) j hj (by omega) (by omega)⟩
    have huntouched : ∀ i j, j < kk → givensStep c M kk i j = M i j := by
      intro i j hj
      by_cases hb : M (kk + 1) kk = 0
      · rw [givensStep_zero c M kk hb]
      · rw [givensStep_apply c M kk hb, if_neg (fun hc => by omega),
          if_neg (fun hc => by omega),
          if_neg (fun hc => absurd hc.2.1 (by omega))]
    have hNZ1 : ∀ i j, j < kk + 1 → i > j → i < c + 1 →
        givensStep c M kk i j = 0 := by
      intro i j hj hij hic
      rcases Nat.lt_succ_iff_lt_or_eq.mp hj with hj' | hj'
      · rw [huntouched i j hj']
        exact hZ1 i j hj' hij hic
      · rw [hj']
        by_cases hi1 : i = kk + 1
        · rw [hi1]
          by_cases hb : M (kk + 1) kk = 0
          · rw [givensStep_zero c M kk hb]
            exact hb
          · rw [givensStep_apply c M kk hb, if_neg (by omega),
              if_pos ⟨rfl, rfl⟩]
        · rw [givensStep_other c M kk i kk (by omega) hi1]
          exact hZ2 i kk (le_refl kk) (by omega) (by omega) hic
    have hNZ2 : ∀ i j, kk + 1 ≤ j → j < c → i > j + 1 → i < c + 1 →
        givensStep c M kk i j = 0 := by
      intro i j hj1 hj2 hij hic
      rw [givensStep_other c M kk i j (by omega) (by omega)]
      exact hZ2 i j (by omega) hj2 hij hic
    obtain ⟨ih1, ih2⟩ := ih (givensStep c M kk) (kk + 1) (by omega) hNZ1 hNZ2
    rw [show givensSteps c (steps + 1) M kk =
      givensSteps c steps (givensStep c M kk) (kk + 1) from rfl]
    refine ⟨ih1, fun u v hu hv => ?_⟩
    rw [ih2 u v hu hv]
    exact givensStep_products c M kk hkk hz1' u v hu hv

/-- `CholeskyDelete` removes one column of the factored Gram matrix and
restores a consistent upper-triangular factor. -/
theorem CholeskyDelete_consistent (R : ℕ → ℕ → ℝ) (k m : ℕ) (en : Bool)
    (l2 : ℝ) (cols : ℕ → ℕ → ℝ) (kill : ℕ)
    (hcons : cholConsistent R k m en l2 cols) (htri : upperTri R k)
    (hkill : kill < k) :
    cholConsistent (CholeskyDelete R k kill) (k - 1) m en l2
      (fun i => cols (if i < kill then i else i + 1)) ∧
    upperTri (CholeskyDelete R k kill) (k - 1) := by
  obtain ⟨c, rfl⟩ : ∃ c, k = c + 1 := ⟨k - 1, by omega⟩
  unfold CholeskyDelete
  by_cases hlast : kill = c + 1 - 1
  · rw [if_pos hlast]
    constructor
    · intro i j hi hj
      have hi' : i < c := hi
      have hj' : j < c := hj
      have h1 : ∑ t in Finset.range c, R t i * R t j =
          gramOf m en l2 cols i j := by
        have h2 := hcons i j (by omega) (by omega)
        rw [Finset.sum_range_succ, htri c i (by omega) (by omega),
          zero_mul, add_zero] at h2
        exact h2
      show ∑ t in Finset.range c, R t i * R t j = _
      rw [h1]
      simp only [gramOf]
      rw [if_pos (show i < kill by omega), if_pos (show j < kill by omega)]
    · intro i j hj hi
      exact htri i j hj (by omega)
  · rw [if_neg hlast]
    have hkc : kill < c := by omega
    show cholConsistent (givensSteps c (c - kill)
        (fun i j => if j < kill then R i j else R i (j + 1)) kill) c m en l2
        (fun i => cols (if i < kill then i else i + 1)) ∧
      upperTri (givensSteps c (c - kill)
        (fun i j => if j < kill then R i j else R i (j + 1)) kill) c
    have hZ1 : ∀ i j, j < kill → i > j → i < c + 1 →
        (fun i j => if j < kill then R i j else R i (j + 1)) i j = 0 := by
      intro i j hj hij hic
      show (if j < kill then R i j else R i (j + 1)) = 0
      rw [if_pos hj]
      exact htri i j hij hic
    have hZ2 : ∀ i j, kill ≤ j → j < c → i > j + 1 → i < c + 1 →
        (fun i j => if j < kill then R i j else R i (j + 1)) i j = 0 := by
      intro i j hj1 hj2 hij hic
      show (if j < kill then R i j else R i (j + 1)) = 0
      rw [if_neg (by omega)]
      exact htri i (j + 1) (by omega) hic
    obtain ⟨g1, g2⟩ := givensSteps_inv c (c - kill)
      (fun i j => if j < kill then R i j else R i (j + 1)) kill
      (by omega) hZ1 hZ2
    constructor
    · intro i j hi hj
      have hi' : i < c := hi
      have hj' : j < c := hj
      have h0 : ∑ t in Finset.range c,
          givensSteps c (c - kill)
            (fun i j => if j < kill then R i j else R i (j + 1)) kill t i *
          givensSteps c (c - kill)
            (fun i j => if j < kill then R i j else R i (j + 1)) kill t j =
          ∑ t in Finset.range (c + 1),
          givensSteps c (c - kill)
            (fun i j => if j < kill then R i j else R i (j + 1)) kill t i *
          givensSteps c (c - kill)
            (fun i j => if j < kill then R i j else R i (j + 1)) kill t j := by
        rw [Finset.sum_range_succ, g1 c i hi' (by omega) (by omega),
          zero_mul, add_zero]
      show ∑ t in Finset.range c, _ * _ = _
      rw [h0, g2 i j hi' hj']
      have hM2 : ∑ t in Finset.range (c + 1),
          (if i < kill then R t i else R t (i + 1)) *
          (if j < kill then R t j else R t (j + 1)) =
          gramOf m en l2 cols (if i < kill then i else i + 1)
            (if j < kill then j else j + 1) := by
        have h2 := hcons (if i < kill then i else i + 1)
          (if j < kill then j else j + 1)
          (by split_ifs <;> omega) (by split_ifs <;> omega)
        rw [← h2]
        refine Finset.sum_congr rfl fun t _ => ?_
        split_ifs <;> rfl
      rw [hM2]
      simp only [gramOf]
      have hiff : ((if i < kill then i else i + 1) =
          (if j < kill then j else j + 1)) ↔ i = j := by
        split_ifs <;> omega
      rw [if_congr (and_congr_right fun _ => hiff) rfl rfl]
    · intro i j hj hi
      exact g1 i j (by omega) hj (by omega)

/-- In the Cholesky branch one loop iteration keeps `R`'s dimension equal to
`n_active`: the insert adds one row/column with the activation, the delete
removes one with the deactivation, and nothing else touches either. -/
theorem larsBody_Rdim (s : LarsState) (hc : s.use_cholesky = true)
    (h : s.Rdim = s.n_active) :
    (larsBody s).1.Rdim = (larsBody s).1.n_active := by
  have hst : (stage1 s).Rdim = (stage1 s).n_active := by
    unfold stage1 kickOrActivate
    by_cases hk : s.kick_out = true
    · rw [if_pos hk]
      simp [hc, Deactivate, h]
    · rw [if_neg hk]
      simp [hc, Activate, h]
  obtain ⟨q1, _, _, _, _, _, _, q8⟩ :=
    updatePhase_proj2 (stage1 s) (stageDir s).1 (stageYd s) (stageDir s).2
      (stageLasso s)
  have hbU : bodyU s = updatePhase (stage1 s) (stageDir s).1 (stageYd s)
      (stageDir s).2 (stageLasso s) := rfl
  rcases larsBody_split s with ⟨_, hb1⟩ | ⟨_, hb1⟩
  · rw [hb1, hbU, q8, q1, hst]
  · rw [hb1, (interpolate_frame _ _).2.2.2.2.2.2.2.1,
      (interpolate_frame _ _).1, hbU, q8, q1, hst]

/-- C1: `CholeskyInsert` starts a consistent `1 × 1` factor from an empty
one; on a consistent upper-triangular factor with nonzero diagonal, fed the
true Gram column of the new variable and a non-negative radicand, it
produces a consistent upper-triangular factor of the extended column
sequence; `CholeskyDelete` of any position produces a consistent
upper-triangular factor of the column sequence with that position skipped;
and in the Cholesky branch a loop iteration keeps `R`'s dimension equal to
`n_active`.  Consistency means `Rᵀ·R` equals the Gram matrix of the active
columns in insertion order, with `λ₂` added to diagonal entries when the
Elastic Net is enabled. -/
theorem C1_cholesky_factor_consistency (R : ℕ → ℕ → ℝ) (k m : ℕ)
    (en : Bool) (l2 : ℝ) (cols : ℕ → ℕ → ℝ) (x g : ℕ → ℝ) (kill : ℕ)
    (s : LarsState) :
    (0 ≤ dotn m x x + (if en = true then l2 else 0) →
      cholConsistent (CholeskyInsert R 0 en l2 m x g) 1 m en l2
        (fun _ => x) ∧
      upperTri (CholeskyInsert R 0 en l2 m x g) 1) ∧
    (k ≠ 0 → cholConsistent R k m en l2 cols → upperTri R k →
      (∀ i, i < k → R i i ≠ 0) →
      (∀ i, i < k → g i = dotn m (cols i) x) →
      0 ≤ cholRadicand R k en l2 m x g →
      cholConsistent (CholeskyInsert R k en l2 m x g) (k + 1) m en l2
        (fun i => if i = k then x else cols i) ∧
      upperTri (CholeskyInsert R k en l2 m x g) (k + 1)) ∧
    (cholConsistent R k m en l2 cols → upperTri R k → kill < k →
      cholConsistent (CholeskyDelete R k kill) (k - 1) m en l2
        (fun i => cols (if i < kill then i else i + 1)) ∧
      upperTri (CholeskyDelete R k kill) (k - 1)) ∧
    (s.use_cholesky = true → s.Rdim = s.n_active →
      (larsBody s).1.Rdim = (larsBody s).1.n_active) := by
  refine ⟨fun hrad => CholeskyInsert_base R m en l2 x g hrad,
    fun hk hcons htri hdiag hg hrad =>
      CholeskyInsert_step R k m en l2 cols x g hk hcons htri hdiag hg hrad,
    fun hcons htri hkill =>
      CholeskyDelete_consistent R k m en l2 cols kill hcons htri hkill,
    fun hc h => larsBody_Rdim s hc h⟩

/-- A one-column consistent factor used as the C1 witness. -/
def Rw : ℕ → ℕ → ℝ := fun i j => if i = 0 ∧ j = 0 then 1 else 0

/-- The first active column for the C1 witness. -/
def colw : ℕ → ℕ → ℝ := fun _ r => if r = 0 then 1 else 0

/-- The newly inserted column for the C1 witness. -/
def xw : ℕ → ℝ := fun r => if r = 1 then 1 else 0

/-- A Cholesky-branch state for the C1 witness. -/
def sChol : LarsState := { larsNew with use_cholesky := true }

/-- Witness for C1 at a concrete `1 × 1` factor over a 2-row dataset. -/
theorem C1_cholesky_factor_consistency_witness :
    ((0 : ℝ) ≤ dotn 2 xw xw + (if false = true then (0 : ℝ) else 0) ∧
     (1 : ℕ) ≠ 0 ∧ cholConsistent Rw 1 2 false 0 colw ∧ upperTri Rw 1 ∧
     (∀ i, i < 1 → Rw i i ≠ 0) ∧
     (∀ i, i < 1 → (fun _ : ℕ => (0 : ℝ)) i = dotn 2 (colw i) xw) ∧
     (0 : ℝ) ≤ cholRadicand Rw 1 false 0 2 xw (fun _ => 0) ∧
     (0 : ℕ) < 1 ∧ sChol.use_cholesky = true ∧ sChol.Rdim = sChol.n_active) ∧
    (larsBody sChol).1.Rdim = (larsBody sChol).1.n_active := by
  have hdot : dotn 2 xw xw = 1 := by
    unfold dotn xw
    rw [Finset.sum_range_succ, Finset.sum_range_one]
    norm_num
  have hdotcx : dotn 2 (colw 0) xw = 0 := by
    unfold dotn colw xw
    rw [Finset.sum_range_succ, Finset.sum_range_one]
    norm_num
  have hcons : cholConsistent Rw 1 2 false 0 colw := by
    intro i j hi hj
    have hi0 : i = 0 := by omega
    have hj0 : j = 0 := by omega
    rw [hi0, hj0, Finset.sum_range_one]
    unfold Rw gramOf dotn colw
    norm_num
  have htri : upperTri Rw 1 := by
    intro i j hj hi
    omega
  have hdiag : ∀ i, i < 1 → Rw i i ≠ 0 := by
    intro i hi
    have hi0 : i = 0 := by omega
    rw [hi0]
    unfold Rw
    norm_num
  have hfs : forwardSub (fun a b' => Rw b' a) (fun _ => 0) 0 = 0 := by
    rw [forwardSub_step]
    simp
  have hrad : (0 : ℝ) ≤ cholRadicand Rw 1 false 0 2 xw (fun _ => 0) := by
    unfold cholRadicand
    rw [hdot]
    have h1 : dotn 1 (forwardSub (fun i j => Rw j i) (fun _ => 0))
        (forwardSub (fun i j => Rw j i) (fun _ => 0)) = 0 := by
      unfold dotn
      rw [Finset.sum_range_one, hfs, mul_zero]
    rw [h1]
    norm_num
  have hg : ∀ i, i < 1 → (fun _ : ℕ => (0 : ℝ)) i = dotn 2 (colw i) xw := by
    intro i hi
    have hi0 : i = 0 := by omega
    rw [hi0, hdotcx]
  refine ⟨⟨by rw [hdot]; norm_num, one_ne_zero, hcons, htri, hdiag, hg,
    hrad, Nat.zero_lt_one, rfl, rfl⟩, ?_⟩
  exact (C1_cholesky_factor_consistency Rw 1 2 false 0 colw xw
    (fun _ => 0) 0 sChol).2.2.2 rfl rfl
